import Mathlib

/-!
Verification of the ransomwatch advisory/IOC pipeline.

Shallow embedding of the Python sources:
  - `ransomwatch/defang.py`   (refang_ip, extract_ips_from_text)
  - `ransomwatch/scraper.py`  (discover_advisories_live, discover_advisories)
  - `ransomwatch/database.py` (upsert_advisory, insert_iocs,
                               clear_iocs_for_advisory, search_ip, get_stats,
                               list_groups)
  - `ransomwatch/stix_parser.py` (parse_stix_file, post-JSON phase)

Strings are modelled as `List Char`; Python regexes are translated into
explicit backtracking matchers that follow the alternation order and
greediness of the original patterns.
-/

namespace Ransomwatch

/-! ## defang.py — refang_ip

`_DOT_RE = re.compile(r"\[\.\]|\[dot\]|\(dot\)|\(\.\)", re.IGNORECASE)`
`refang_ip(text) = _DOT_RE.sub(".", text)`

`sepHead l` returns the remainder of `l` after a separator occurrence at the
head of `l`, if one is there.  The four alternatives are mutually exclusive
at any one position (they differ in their second character), so alternation
order does not matter.  IGNORECASE only affects the letters d/o/t. -/

def lowAlpha (c : Char) : Char := c.toLower

def isDotWord (a b c : Char) : Bool :=
  lowAlpha a == 'd' && lowAlpha b == 'o' && lowAlpha c == 't'

def sepHead : List Char → Option (List Char)
  | a :: b :: c :: rest =>
    if (a = '[' ∧ b = '.' ∧ c = ']') ∨ (a = '(' ∧ b = '.' ∧ c = ')') then
      some rest
    else
      match rest with
      | d :: e :: rest2 =>
        if ((a = '[' ∧ e = ']') ∨ (a = '(' ∧ e = ')'))
            ∧ isDotWord b c d = true then
          some rest2
        else none
      | _ => none
  | _ => none

/-- One left-to-right substitution pass of `_DOT_RE.sub(".", ·)`,
fuel-indexed (fuel ≥ length suffices). -/
def refangAux : Nat → List Char → List Char
  | 0, l => l
  | _ + 1, [] => []
  | fuel + 1, c :: rest =>
    match sepHead (c :: rest) with
    | some r => '.' :: refangAux fuel r
    | none => c :: refangAux fuel rest

def refang_ip (s : String) : String :=
  ⟨refangAux s.data.length s.data⟩

/-- `true` iff a separator occurs at some position of `l`. -/
def hasSep : List Char → Bool
  | [] => false
  | c :: rest => (sepHead (c :: rest)).isSome || hasSep rest

/-! ## defang.py — extract_ips_from_text

`_IPV4_RE = re.compile(r"\b(?:(?:25[0-5]|2[0-4]\d|[01]?\d\d?)\.){3}`
`                       r"(?:25[0-5]|2[0-4]\d|[01]?\d\d?)\b")`

The octet sub-pattern `25[0-5]|2[0-4]\d|[01]?\d\d?` is translated into the
list of consumed lengths, in the exact order the backtracking engine tries
them (alternation left to right; `[01]?` and `\d?` greedy). -/

def wordChar (c : Char) : Bool := c.isAlphanum || c == '_'

def octetAlt1 : List Char → List Nat
  | a :: b :: c :: _ =>
    if a = '2' ∧ b = '5' ∧ '0' ≤ c ∧ c ≤ '5' then [3] else []
  | _ => []

def octetAlt2 : List Char → List Nat
  | a :: b :: c :: _ =>
    if a = '2' ∧ '0' ≤ b ∧ b ≤ '4' ∧ c.isDigit = true then [3] else []
  | _ => []

def octetAlt3a : List Char → List Nat
  | a :: b :: c :: _ =>
    if (a = '0' ∨ a = '1') ∧ b.isDigit = true then
      (if c.isDigit = true then [3, 2] else [2])
    else []
  | [a, b] => if (a = '0' ∨ a = '1') ∧ b.isDigit = true then [2] else []
  | _ => []

def octetAlt3b : List Char → List Nat
  | a :: b :: _ =>
    if a.isDigit = true then (if b.isDigit = true then [2, 1] else [1]) else []
  | [a] => if a.isDigit = true then [1] else []
  | [] => []

def octetCands (l : List Char) : List Nat :=
  octetAlt1 l ++ octetAlt2 l ++ octetAlt3a l ++ octetAlt3b l

def firstSome (f : Nat → Option Nat) : List Nat → Option Nat
  | [] => none
  | n :: ns =>
    match f n with
    | some m => some m
    | none => firstSome f ns

/-- `\b` right after an octet: the previous char is a digit (a word char),
so the boundary holds iff the next char is absent or not a word char. -/
def boundaryAfter : List Char → Bool
  | [] => true
  | c :: _ => !wordChar c

/-- A literal `.` followed by the continuation. -/
def dotThen (g : List Char → Option Nat) : List Char → Option Nat
  | c :: r => if c = '.' then g r else none
  | [] => none

/-- Backtracking match of `k` octets separated by literal dots, with a
trailing `\b`; returns the total number of consumed characters. -/
def matchOctets : Nat → List Char → Option Nat
  | 0, _ => none
  | 1, l =>
    firstSome
      (fun n => if boundaryAfter (l.drop n) then some n else none)
      (octetCands l)
  | k + 2, l =>
    firstSome
      (fun n => dotThen (fun r => (matchOctets (k + 1) r).map (· + n + 1))
        (l.drop n))
      (octetCands l)

/-- `finditer` scan: leftmost, non-overlapping matches of the IPv4 regex.
`prevW` says whether the character before the current position is a word
character (for the leading `\b`; every match starts with a digit). -/
def scanIPv4 : Nat → List Char → Bool → List (List Char)
  | _, [], _ => []
  | 0, _ :: _, _ => []
  | fuel + 1, c :: rest, prevW =>
    if prevW then
      scanIPv4 fuel rest (wordChar c)
    else
      match matchOctets 4 (c :: rest) with
      | some n =>
        (c :: rest).take n :: scanIPv4 fuel ((c :: rest).drop n) true
      | none => scanIPv4 fuel rest (wordChar c)

/-- First-seen-order deduplication (the `seen` set / `result` list loop). -/
def dedupFirst (seen : List String) : List String → List String
  | [] => []
  | s :: rest =>
    if s ∈ seen then dedupFirst seen rest
    else s :: dedupFirst (s :: seen) rest

def extract_ips_from_text (s : String) : List String :=
  let cleaned := (refang_ip s).data
  dedupFirst [] ((scanIPv4 cleaned.length cleaned false).map (⟨·⟩))

/-! Vocabulary for dotted-quad literals: canonical decimal numerals joined
by dots. -/

/-- The decimal digit character for `d ≤ 9`. -/
def digitChar (d : Nat) : Char := Char.ofNat (48 + d)

/-- Canonical decimal numeral of a value `n ≤ 999`. -/
def octetChars (n : Nat) : List Char :=
  if n < 10 then [digitChar n]
  else if n < 100 then [digitChar (n / 10), digitChar (n % 10)]
  else [digitChar (n / 100), digitChar (n / 10 % 10), digitChar (n % 10)]

/-- Numerals joined by literal dots. -/
def ipJoin : List Nat → List Char
  | [] => []
  | [v] => octetChars v
  | v :: w :: vs => octetChars v ++ '.' :: ipJoin (w :: vs)

def ipChars (a b c d : Nat) : List Char := ipJoin [a, b, c, d]

/-- The dotted-quad literal `"a.b.c.d"`. -/
def ipString (a b c d : Nat) : String := ⟨ipChars a b c d⟩

/-! ## models.py -/

structure Advisory where
  advisory_id : String
  title : String
  url : String
  published : Option String := none
  stix_url : Option String := none
  pdf_url : Option String := none
deriving DecidableEq, Repr

structure IOCRecord where
  ioc_type : String
  value : String
  advisory_id : String
  source : String
deriving DecidableEq, Repr

structure MatchDetail where
  advisory_id : String
  title : String
  url : String
  source : String
  published : Option String := none
deriving DecidableEq, Repr

structure SearchResult where
  query : String
  normalized_ip : String
  found : Bool
  matches' : List MatchDetail
deriving DecidableEq, Repr

/-! ## scraper.py — discover_advisories_live

The HTTP fetch plus BeautifulSoup anchor enumeration is the collaborator
boundary: a listing page is a list of anchors (`href`, visible text), and
`fetch n` is the result of requesting page `n` (`none` = transport failure).
`MAX_DISCOVERY_PAGES` is imported by `scraper.py` but its value is not in
`src/`, so the page cap is a parameter. -/

structure Link where
  href : String
  text : String
deriving DecidableEq, Repr

/-- Python `pat in hay` on strings. -/
def containsSub (pat : List Char) : List Char → Bool
  | [] => pat.isPrefixOf []
  | c :: rest => pat.isPrefixOf (c :: rest) || containsSub pat rest

/-- One attempt of `_ADVISORY_ID_RE` (`aa\d{2}-\d{3}a`) anchored here. -/
def advIdAt : List Char → Option (List Char)
  | 'a' :: 'a' :: d1 :: d2 :: '-' :: d3 :: d4 :: d5 :: 'a' :: _ =>
    if d1.isDigit && d2.isDigit && d3.isDigit && d4.isDigit && d5.isDigit
    then some ['a', 'a', d1, d2, '-', d3, d4, d5, 'a'] else none
  | _ => none

/-- `_ADVISORY_ID_RE.search`: leftmost match. -/
def advIdSearch : List Char → Option (List Char)
  | [] => none
  | c :: rest =>
    match advIdAt (c :: rest) with
    | some m => some m
    | none => advIdSearch rest

def cisaAdvisoryUrl (adv_id : String) : String :=
  "https://www.cisa.gov/news-events/cybersecurity-advisories/" ++ adv_id

/-- The three filters of the inner loop, in source order: advisory-URL
substring, advisory-id regex, `"stopransomware" in title.lower()`. -/
def relevantEntry (link : Link) : Option (String × String) :=
  if containsSub "/news-events/cybersecurity-advisories/aa".data link.href.data then
    match advIdSearch link.href.data with
    | some idChars =>
      if containsSub "stopransomware".data (link.text.data.map Char.toLower) then
        some (⟨idChars⟩, link.text)
      else none
    | none => none
  else none

/-- The `for link in soup.find_all(...)` loop: threads the `discovered`
insertion-ordered mapping and the `links_found` / `new_on_page` counters. -/
def processLinks (known : List String) :
    List Link → List (String × Advisory) → Nat → Nat →
    List (String × Advisory) × Nat × Nat
  | [], disc, lf, np => (disc, lf, np)
  | l :: rest, disc, lf, np =>
    match relevantEntry l with
    | none => processLinks known rest disc lf np
    | some (advId, title) =>
      if advId ∈ known ∨ advId ∈ disc.map Prod.fst then
        processLinks known rest disc (lf + 1) np
      else
        processLinks known rest
          (disc ++ [(advId,
            { advisory_id := advId, title := title, url := cisaAdvisoryUrl advId })])
          (lf + 1) (np + 1)

/-- The `for page_num in range(MAX_DISCOVERY_PAGES)` loop.  Returns the
accumulated `discovered` mapping and the number of fetches attempted
(a failing fetch is still one attempt and breaks the loop). -/
def runPages (fetch : Nat → Option (List Link)) (known : List String) :
    Nat → Nat → List (String × Advisory) → List (String × Advisory) × Nat
  | 0, _, disc => (disc, 0)
  | fuel + 1, pageNum, disc =>
    match fetch pageNum with
    | none => (disc, 1)
    | some page =>
      let r := processLinks known page disc 0 0
      if r.2.1 = 0 ∨ (r.2.2 = 0 ∧ 0 < r.2.1) then (r.1, 1)
      else
        let rest := runPages fetch known fuel (pageNum + 1) r.1
        (rest.1, rest.2 + 1)

/-- `discover_advisories_live`: newly discovered advisories in
first-discovery order, paired with the number of page fetches attempted. -/
def discover_advisories_live (fetch : Nat → Option (List Link))
    (known_ids : List String) (maxPages : Nat) : List Advisory × Nat :=
  let r := runPages fetch known_ids maxPages 0 []
  (r.1.map Prod.snd, r.2)

/-- The advisory built for a newly discovered (id, title) pair. -/
def mkDiscovered (p : String × String) : Advisory :=
  { advisory_id := p.1, title := p.2, url := cisaAdvisoryUrl p.1 }

/-- First-seen filtering of (id, title) pairs against a seen-id set: the
per-page `new_on_page` selection. -/
def newEntries : List String → List (String × String) → List (String × String)
  | _, [] => []
  | seen, (idv, t) :: rest =>
    if idv ∈ seen then newEntries seen rest
    else (idv, t) :: newEntries (idv :: seen) rest

/-- `links_found` of a page: its relevant anchors (duplicates counted). -/
def linksFoundOn (page : List Link) : Nat :=
  (page.filterMap relevantEntry).length

/-- The page's not-previously-seen entries, in page order. -/
def pageNew (page : List Link) (seen : List String) : List (String × String) :=
  newEntries seen (page.filterMap relevantEntry)

/-- Ids known after pages `0 .. n-1` have been processed. -/
def seenAfter (fetch : Nat → Option (List Link)) (known : List String) :
    Nat → List String
  | 0 => known
  | n + 1 =>
    match fetch n with
    | none => seenAfter fetch known n
    | some page =>
      seenAfter fetch known n
        ++ (pageNew page (seenAfter fetch known n)).map Prod.fst

/-- Advisories newly discovered on pages `0 .. n-1`, in first-discovery
order. -/
def advisoriesUpTo (fetch : Nat → Option (List Link)) (known : List String) :
    Nat → List Advisory
  | 0 => []
  | n + 1 =>
    advisoriesUpTo fetch known n ++
      match fetch n with
      | none => []
      | some page => (pageNew page (seenAfter fetch known n)).map mkDiscovered

/-- The loop stops after page `n` exactly when the fetch fails, the page has
no relevant links, or it has relevant links but no new ids. -/
def stopOn (fetch : Nat → Option (List Link)) (known : List String)
    (n : Nat) : Prop :=
  match fetch n with
  | none => True
  | some page =>
    linksFoundOn page = 0 ∨ (pageNew page (seenAfter fetch known n)).length = 0

/-! Concrete two-page discovery scenario: page 0 has two relevant new links
(and two irrelevant ones), page 1 has none. -/

def scenLink1 : Link :=
  { href := "/news-events/cybersecurity-advisories/aa25-100a",
    text := "#StopRansomware: FakeLocker" }

def scenLink2 : Link :=
  { href := "/news-events/cybersecurity-advisories/aa25-098a",
    text := "#StopRansomware: AnotherRansom" }

def scenLinkOther : Link :=
  { href := "/news-events/cybersecurity-advisories/aa25-099a",
    text := "Alert: Something Else" }

def scenLinkAbout : Link := { href := "/about", text := "About CISA" }

def scenFetch : Nat → Option (List Link) := fun n =>
  if n = 0 then some [scenLink1, scenLinkOther, scenLink2, scenLinkAbout]
  else if n = 1 then some [scenLinkAbout]
  else none

/-! ## scraper.py — discover_advisories (catalog + merge) -/

def catalogAdvisories (catalog : List (String × String)) : List Advisory :=
  catalog.map fun p =>
    { advisory_id := p.1, title := p.2, url := cisaAdvisoryUrl p.1 }

/-- Insertion into a Python dict keyed by advisory_id: an existing key keeps
its position and takes the new value, a new key is appended. -/
def dictInsert (m : List (String × Advisory)) (a : Advisory) :
    List (String × Advisory) :=
  if a.advisory_id ∈ m.map Prod.fst then
    m.map fun p => if p.1 = a.advisory_id then (p.1, a) else p
  else m ++ [(a.advisory_id, a)]

/-- The catalog pass: `if a.advisory_id not in merged: merged[id] = a`. -/
def catStep (m : List (String × Advisory)) (a : Advisory) :
    List (String × Advisory) :=
  if a.advisory_id ∈ m.map Prod.fst then m else m ++ [(a.advisory_id, a)]

/-- `merged = {a.advisory_id: a for a in live}`; then catalog entries whose
id is not already present are appended; result is `list(merged.values())`. -/
def mergeAdvisories (live : List Advisory) (catalog : List Advisory) :
    List Advisory :=
  (catalog.foldl catStep (live.foldl dictInsert [])).map Prod.snd

def discover_advisories (fetch : Nat → Option (List Link)) (maxPages : Nat)
    (catalog : List (String × String)) (refresh : Bool) : List Advisory :=
  if refresh then
    mergeAdvisories (discover_advisories_live fetch [] maxPages).1
      (catalogAdvisories catalog)
  else catalogAdvisories catalog

/-! ## database.py

The SQLite store is modelled as in-memory tables: `advisories` rows in
rowid order (`ON CONFLICT ... DO UPDATE` keeps the row in place) and `iocs`
rows in insertion order. -/

structure AdvRow where
  advisory_id : String
  title : String
  url : String
  published : Option String := none
  stix_url : Option String := none
  pdf_url : Option String := none
deriving DecidableEq, Repr

def Advisory.toRow (a : Advisory) : AdvRow :=
  { advisory_id := a.advisory_id, title := a.title, url := a.url,
    published := a.published, stix_url := a.stix_url, pdf_url := a.pdf_url }

structure DB where
  advisories : List AdvRow
  iocs : List IOCRecord
deriving DecidableEq, Repr

def emptyDB : DB := { advisories := [], iocs := [] }

/-- `INSERT ... ON CONFLICT(advisory_id) DO UPDATE SET <all fields>`. -/
def upsert_advisory (db : DB) (adv : Advisory) : DB :=
  if db.advisories.any (fun r => r.advisory_id == adv.advisory_id) then
    { db with advisories := db.advisories.map fun r =>
        if r.advisory_id = adv.advisory_id then adv.toRow else r }
  else { db with advisories := db.advisories ++ [adv.toRow] }

/-- Bulk insert; the foreign-key pragma rejects a batch referencing a
missing advisory (the transaction is then not committed). -/
def insert_iocs (db : DB) (records : List IOCRecord) : Option (DB × Nat) :=
  if records.isEmpty then some (db, 0)
  else if records.all
      (fun r => db.advisories.any (fun a => a.advisory_id == r.advisory_id)) then
    some ({ db with iocs := db.iocs ++ records }, records.length)
  else none

/-- `if source:` — Python truthiness: `None` and `""` both select the
delete-all-sources branch. -/
def clear_iocs_for_advisory (db : DB) (advisory_id : String)
    (source : Option String) : DB :=
  match source with
  | some s =>
    if s = "" then
      { db with iocs := db.iocs.filter fun r => r.advisory_id != advisory_id }
    else
      { db with iocs := db.iocs.filter fun r =>
          !(r.advisory_id == advisory_id && r.source == s) }
  | none =>
    { db with iocs := db.iocs.filter fun r => r.advisory_id != advisory_id }

/-- The row set of `SELECT i.advisory_id, a.title, a.url, i.source,
a.published FROM iocs i JOIN advisories a ON i.advisory_id = a.advisory_id
WHERE i.value = ? AND i.ioc_type = 'ipv4-addr'`. -/
def searchRows (db : DB) (ip : String) : List MatchDetail :=
  (db.iocs.filter fun i => i.value == ip && i.ioc_type == "ipv4-addr").flatMap
    fun i =>
      (db.advisories.filter fun a => a.advisory_id == i.advisory_id).map
        fun a =>
          { advisory_id := a.advisory_id, title := a.title, url := a.url,
            source := i.source, published := a.published }

def search_ip (db : DB) (ip : String) : SearchResult :=
  { query := ip, normalized_ip := ip, found := 0 < (searchRows db ip).length,
    matches' := searchRows db ip }

structure Stats where
  advisories : Nat
  total_iocs : Nat
  by_type : String → Nat
  by_source : String → Nat

def get_stats (db : DB) : Stats :=
  { advisories := db.advisories.length,
    total_iocs := db.iocs.length,
    by_type := fun t => (db.iocs.filter fun r => r.ioc_type == t).length,
    by_source := fun s => (db.iocs.filter fun r => r.source == s).length }

/-- Python `str.strip()`: whitespace removed from both ends. -/
def trimChars (l : List Char) : List Char :=
  ((l.dropWhile Char.isWhitespace).reverse.dropWhile Char.isWhitespace).reverse

/-- Strip the `'#StopRansomware: '` / `'#StopRansomware:'` prefix (first
matching one wins, remainder is whitespace-stripped); otherwise the title
is unchanged. -/
def stripGroupName (title : String) : String :=
  if "#StopRansomware: ".data.isPrefixOf title.data then
    ⟨trimChars (title.data.drop "#StopRansomware: ".data.length)⟩
  else if "#StopRansomware:".data.isPrefixOf title.data then
    ⟨trimChars (title.data.drop "#StopRansomware:".data.length)⟩
  else title

/-- Strict string order of SQLite's BINARY collation (`memcmp` on UTF-8
bytes, which agrees with code-point order). -/
def strLtb : List Char → List Char → Bool
  | [], [] => false
  | [], _ :: _ => true
  | _ :: _, [] => false
  | a :: as, b :: bs => if a < b then true else if b < a then false else strLtb as bs

def titleLe (a b : AdvRow) : Bool := !strLtb b.title.data a.title.data

/-- `SELECT title, advisory_id FROM advisories ORDER BY title`, then the
prefix strip.  `ORDER BY` with the default BINARY collation sorts by code
point. -/
def list_groups (db : DB) : List (String × String) :=
  (db.advisories.insertionSort fun a b => titleLe a b = true).map
    fun r => (stripGroupName r.title, r.advisory_id)

def advisory_exists (db : DB) (advisory_id : String) : Bool :=
  db.advisories.any fun r => r.advisory_id == advisory_id

/-! ## stix_parser.py

`json.load` is the collaborator boundary; a parsed document is its
`"objects"` list, each object contributing its `"type"` and `"pattern"`
fields.  The clause regex

`_PATTERN_RE = re.compile(r"\[(\S+?)(?::value|\:hashes\.\S+?)\s*=\s*'([^']+)'\]")`

is translated into a backtracking matcher with the same alternation order
and laziness. -/

structure StixObject where
  objType : Option String := none
  pattern : Option String := none
deriving DecidableEq, Repr

/-- `\s*=\s*'([^']+)'\]` — returns (group 2, remainder). -/
def assignTail (l : List Char) : Option (List Char × List Char) :=
  match l.dropWhile Char.isWhitespace with
  | '=' :: r =>
    match r.dropWhile Char.isWhitespace with
    | '\'' :: r2 =>
      let v := r2.takeWhile (fun c => c != '\'')
      if v.isEmpty then none
      else
        match r2.drop v.length with
        | '\'' :: ']' :: rest => some (v, rest)
        | _ => none
    | _ => none
  | _ => none

/-- Lazy `\S+?` after `:hashes.`: consume one non-space char at a time,
trying the `\s*=\s*'...'` continuation after each. -/
def hashLoop : Nat → List Char → Option (List Char × List Char)
  | _, [] => none
  | 0, _ :: _ => none
  | fuel + 1, c :: rest =>
    if c.isWhitespace then none
    else
      match assignTail rest with
      | some r => some r
      | none => hashLoop fuel rest

/-- `(?::value|\:hashes\.\S+?)\s*=\s*'([^']+)'\]`, alternatives in order. -/
def suffixTail (l : List Char) : Option (List Char × List Char) :=
  match (if l.take 6 = ":value".data then assignTail (l.drop 6) else none) with
  | some r => some r
  | none =>
    if l.take 8 = ":hashes.".data then hashLoop (l.drop 8).length (l.drop 8)
    else none

/-- Lazy group 1 (`\S+?`): grow one non-space char at a time, trying the
suffix continuation after each.  Returns (group 1, group 2, remainder). -/
def g1Loop : Nat → List Char → List Char →
    Option (List Char × List Char × List Char)
  | _, _, [] => none
  | 0, _, _ :: _ => none
  | fuel + 1, acc, c :: rest =>
    if c.isWhitespace then none
    else
      match suffixTail rest with
      | some (v, after) => some (acc ++ [c], v, after)
      | none => g1Loop fuel (acc ++ [c]) rest

/-- One clause-match attempt anchored at this position. -/
def clauseAt : List Char → Option (List Char × List Char × List Char)
  | '[' :: rest => g1Loop rest.length [] rest
  | _ => none

/-- `_PATTERN_RE.finditer`: leftmost, non-overlapping clause matches,
as (group 1, group 2) pairs. -/
def scanClauses : Nat → List Char → List (List Char × List Char)
  | _, [] => []
  | 0, _ :: _ => []
  | fuel + 1, c :: rest =>
    match clauseAt (c :: rest) with
    | some (g1, v, after) => (g1, v) :: scanClauses fuel after
    | none => scanClauses fuel rest

/-- `_TYPE_MAP.get(raw_type, raw_type)`. -/
def typeMap (raw : String) : String :=
  if raw = "ipv4-addr" then "ipv4-addr"
  else if raw = "ipv6-addr" then "ipv6-addr"
  else if raw = "domain-name" then "domain-name"
  else if raw = "url" then "url"
  else if raw = "file" then "file:hashes"
  else raw

/-- Clauses contributed by one object: non-`"indicator"` objects contribute
nothing; a missing pattern reads as `""`. -/
def objectClauses (o : StixObject) : List (String × String) :=
  if o.objType = some "indicator" then
    (scanClauses (o.pattern.getD "").data.length (o.pattern.getD "").data).map
      fun p => (⟨p.1⟩, ⟨p.2⟩)
  else []

/-- The `seen` / `records` dedup loop over all matched clauses. -/
def stixFold (advisory_id : String) (seen : List (String × String)) :
    List (String × String) → List IOCRecord
  | [] => []
  | (rawType, value) :: rest =>
    let t := typeMap rawType
    if (t, value) ∈ seen then stixFold advisory_id seen rest
    else
      { ioc_type := t, value := value, advisory_id := advisory_id,
        source := "stix" } :: stixFold advisory_id ((t, value) :: seen) rest

/-- `parse_stix_file` after `json.load`: extract, type-map, de-duplicate by
(ioc_type, value), tag with `source = "stix"` (the structured source). -/
def parse_stix_objects (objects : List StixObject) (advisory_id : String) :
    List IOCRecord :=
  stixFold advisory_id [] (objects.flatMap objectClauses)

/-! ## Concrete instances used as witnesses and counterexamples -/

def advW : Advisory :=
  { advisory_id := "aa23-061a",
    title := "#StopRansomware: Royal Ransomware",
    url := "https://www.cisa.gov/cybersecurity-advisories/aa23-061a" }

def advW2 : Advisory :=
  { advisory_id := "aa23-061a",
    title := "#StopRansomware: Royal Ransomware (Updated)",
    url := "https://www.cisa.gov/cybersecurity-advisories/aa23-061a" }

def dbW : DB :=
  { advisories := [advW.toRow],
    iocs :=
      [{ ioc_type := "ipv4-addr", value := "193.233.254.21",
         advisory_id := "aa23-061a", source := "stix" },
       { ioc_type := "ipv4-addr", value := "193.233.254.21",
         advisory_id := "aa23-061a", source := "pdf" },
       { ioc_type := "domain-name", value := "evil.example.com",
         advisory_id := "aa23-061a", source := "stix" }] }

/-- The spec's "IP-address types" among the fixed ioc_type enumeration. -/
def specIPAddressTypes : List String := ["ipv4-addr", "ipv6-addr"]

/-- Index holding one IPv6-address record. -/
def dbV6 : DB :=
  { advisories := [{ advisory_id := "aa23-061a", title := "t", url := "u" }],
    iocs := [{ ioc_type := "ipv6-addr", value := "2001:db8::1",
               advisory_id := "aa23-061a", source := "stix" }] }

/-- Two advisories whose title order differs from their group-name order. -/
def dbTitles : DB :=
  { advisories :=
      [{ advisory_id := "a1", title := "Apple", url := "u1" },
       { advisory_id := "a2", title := "#StopRansomware: Zebra", url := "u2" }],
    iocs := [] }

end Ransomwatch

namespace Ransomwatch

/-! # Theorems -/

/-! ## C1 — refang idempotence -/

theorem refangAux_of_no_sep :
    ∀ (fuel : Nat) (l : List Char), hasSep l = false → refangAux fuel l = l := by
  intro fuel
  induction fuel with
  | zero => intro l _; rfl
  | succ n ih =>
    intro l h
    cases l with
    | nil => rfl
    | cons c rest =>
      simp only [hasSep, Bool.or_eq_false_iff] at h
      cases hsep : sepHead (c :: rest) with
      | some r => rw [hsep] at h; simp at h
      | none => simp only [refangAux, hsep]; rw [ih rest h.2]

/-- C1 (corrected): `refang` is *not* idempotent in general (see the
counterexample `"[[dot]]"`), but it is idempotent on every input whose
refanged form contains no separator occurrence. -/
theorem claim_C1_refang_idempotent_of_no_sep (s : String)
    (h : hasSep (refang_ip s).data = false) :
    refang_ip (refang_ip s) = refang_ip s := by
  show String.mk (refangAux (refang_ip s).data.length (refang_ip s).data)
      = refang_ip s
  rw [refangAux_of_no_sep _ _ h]

theorem claim_C1_witness :
    hasSep (refang_ip "192[.]168[.]1[.]1").data = false
      ∧ refang_ip (refang_ip "192[.]168[.]1[.]1") = refang_ip "192[.]168[.]1[.]1" :=
  ⟨by decide, claim_C1_refang_idempotent_of_no_sep "192[.]168[.]1[.]1" (by decide)⟩

/-- C1 counterexample: replacing `[dot]` inside `[[dot]]` produces the new
separator `[.]`, so a second application changes the string again. -/
theorem claim_C1_counterexample :
    refang_ip (refang_ip "[[dot]]") ≠ refang_ip "[[dot]]" := by decide

/-! ## C10 — clear_iocs with the empty-string source -/

/-- C10: `clear_iocs_for_advisory` with `source = ""` behaves exactly like
omitting the source (Python truthiness), clearing every source. -/
theorem claim_C10_clear_empty_source (db : DB) (advId : String) :
    clear_iocs_for_advisory db advId (some "")
      = clear_iocs_for_advisory db advId none := rfl

/-! ## C4 — clear_iocs frame property -/

/-- C4: with a (non-empty) source, `clear_iocs_for_advisory` deletes exactly
the records matching (advisory_id, source): the other source's records for
the same advisory and all records of other advisories survive, the
advisories table is untouched, and with no source all sources are cleared. -/
theorem claim_C4_clear_iocs_frame (db : DB) (advId s : String) (hs : s ≠ "") :
    (clear_iocs_for_advisory db advId (some s)).iocs
        = db.iocs.filter (fun r => !(r.advisory_id == advId && r.source == s))
      ∧ (clear_iocs_for_advisory db advId (some s)).advisories = db.advisories
      ∧ (∀ r ∈ db.iocs, r.source ≠ s →
          r ∈ (clear_iocs_for_advisory db advId (some s)).iocs)
      ∧ (∀ r ∈ db.iocs, r.advisory_id ≠ advId →
          r ∈ (clear_iocs_for_advisory db advId (some s)).iocs)
      ∧ (clear_iocs_for_advisory db advId none).iocs
          = db.iocs.filter (fun r => r.advisory_id != advId) := by
  have hiocs : (clear_iocs_for_advisory db advId (some s)).iocs
      = db.iocs.filter (fun r => !(r.advisory_id == advId && r.source == s)) := by
    simp only [clear_iocs_for_advisory, if_neg hs]
  have hadv : (clear_iocs_for_advisory db advId (some s)).advisories
      = db.advisories := by
    simp only [clear_iocs_for_advisory, if_neg hs]
  refine ⟨hiocs, hadv, ?_, ?_, rfl⟩
  · intro r hr hsrc
    rw [hiocs]
    simp only [List.mem_filter, hr, true_and]
    simp [hsrc]
  · intro r hr hid
    rw [hiocs]
    simp only [List.mem_filter, hr, true_and]
    simp [hid]

theorem claim_C4_witness :
    (clear_iocs_for_advisory dbW "aa23-061a" (some "stix")).iocs
      = dbW.iocs.filter
          (fun r => !(r.advisory_id == "aa23-061a" && r.source == "stix")) :=
  (claim_C4_clear_iocs_frame dbW "aa23-061a" "stix" (by decide)).1

/-! ## C6 — structured-IOC parsing, end to end -/

/-- C6: the two-clause indicator pattern yields exactly the two records, in
clause order, both tagged with the structured source (`"stix"`). -/
theorem claim_C6_stix_two_clauses :
    parse_stix_objects
        [{ objType := some "indicator",
           pattern := some
             "[ipv4-addr:value = '1.2.3.4'] AND [domain-name:value = 'evil.example']" }]
        "aa23-061a"
      = [{ ioc_type := "ipv4-addr", value := "1.2.3.4",
           advisory_id := "aa23-061a", source := "stix" },
         { ioc_type := "domain-name", value := "evil.example",
           advisory_id := "aa23-061a", source := "stix" }] := by decide

/-! ## C7 — search_ip type restriction -/

/-- C7 counterexample: a stored record of IP-address type `ipv6-addr` whose
value equals the query contributes no match — `search_ip` is restricted to
`ipv4-addr` only, not to all IP-address types. -/
theorem claim_C7_counterexample :
    (dbV6.iocs.filter
        (fun r => r.value == "2001:db8::1"
          && specIPAddressTypes.contains r.ioc_type)).length = 1
      ∧ ((search_ip dbV6 "2001:db8::1").matches').length = 0 := by decide

theorem count_filter_key_eq_one {α : Type} (f : α → String) (key : String) :
    ∀ (l : List α), (l.map f).Nodup → key ∈ l.map f →
      (l.filter (fun x => f x == key)).length = 1 := by
  intro l
  induction l with
  | nil => intro _ h; simp at h
  | cons x l ih =>
    intro hnd hmem
    simp only [List.map_cons, List.nodup_cons] at hnd
    by_cases h : f x = key
    · have hout : key ∉ l.map f := h ▸ hnd.1
      have hnil : l.filter (fun y => f y == key) = [] := by
        apply List.filter_eq_nil_iff.mpr
        intro y hy hk
        exact hout (List.mem_map.mpr ⟨y, hy, by simpa using hk⟩)
      simp [List.filter_cons, h, hnil]
    · have hmem' : key ∈ l.map f := by
        simp only [List.map_cons, List.mem_cons] at hmem
        exact hmem.resolve_left (fun e => h e.symm)
      simp [List.filter_cons, h, ih hnd.2 hmem']

theorem flatMap_singleton_length {α β : Type} (l : List α) (f : α → List β)
    (h : ∀ x ∈ l, (f x).length = 1) : (l.flatMap f).length = l.length := by
  induction l with
  | nil => rfl
  | cons x l ih =>
    simp only [List.flatMap_cons, List.length_append, List.length_cons,
      h x (List.mem_cons_self x l), ih (fun y hy => h y (List.mem_cons_of_mem x hy))]
    omega

/-- C7 (amended): `search_ip` returns exactly one match per stored record of
the `ipv4-addr` type whose value equals the query (given primary-key and
foreign-key integrity), and every match originates from such a record. -/
theorem claim_C7_search_ip_matches (db : DB) (ip : String)
    (hpk : (db.advisories.map AdvRow.advisory_id).Nodup)
    (hfk : ∀ r ∈ db.iocs, r.advisory_id ∈ db.advisories.map AdvRow.advisory_id) :
    ((search_ip db ip).matches').length
        = (db.iocs.filter
            (fun r => r.value == ip && r.ioc_type == "ipv4-addr")).length
      ∧ (∀ m ∈ (search_ip db ip).matches',
          ∃ r ∈ db.iocs, r.ioc_type = "ipv4-addr" ∧ r.value = ip
            ∧ m.advisory_id = r.advisory_id ∧ m.source = r.source) := by
  constructor
  · show (searchRows db ip).length = _
    unfold searchRows
    apply flatMap_singleton_length
    intro r hr
    rw [List.length_map]
    exact count_filter_key_eq_one AdvRow.advisory_id r.advisory_id
      db.advisories hpk (hfk r (List.mem_of_mem_filter hr))
  · intro m hm
    have hm' : m ∈ searchRows db ip := hm
    unfold searchRows at hm'
    simp only [List.mem_flatMap, List.mem_map, List.mem_filter] at hm'
    obtain ⟨r, ⟨hr, hcond⟩, a, ⟨ha, hak⟩, hma⟩ := hm'
    simp only [Bool.and_eq_true, beq_iff_eq] at hcond
    refine ⟨r, hr, hcond.2, hcond.1, ?_, ?_⟩
    · rw [← hma]; simpa using hak
    · rw [← hma]

theorem claim_C7_witness :
    ((search_ip dbW "193.233.254.21").matches').length
      = (dbW.iocs.filter
          (fun r => r.value == "193.233.254.21"
            && r.ioc_type == "ipv4-addr")).length :=
  (claim_C7_search_ip_matches dbW "193.233.254.21" (by decide)
    (by decide)).1

/-! ## C8 — list_groups ordering -/

/-- C8 (code bug): `list_groups` strips the recognized prefix but sorts by
the raw title (`ORDER BY title`), not by the derived group name, although
its own docstring promises "sorted by group name".  With titles `"Apple"`
and `"#StopRansomware: Zebra"` the result is `[("Zebra", _), ("Apple", _)]`,
which is not sorted by name under the same collation. -/
theorem claim_C8_list_groups_unsorted :
    list_groups dbTitles = [("Zebra", "a2"), ("Apple", "a1")]
      ∧ ¬ List.Sorted (fun x y : String => strLtb y.data x.data = false)
          ((list_groups dbTitles).map Prod.fst) := by
  constructor
  · decide
  · decide

/-! ## C9 — upsert_advisory idempotence by key -/

theorem upsert_advisories_found (db : DB) (a : Advisory)
    (h : db.advisories.any (fun r => r.advisory_id == a.advisory_id) = true) :
    (upsert_advisory db a).advisories
      = db.advisories.map
          (fun r => if r.advisory_id = a.advisory_id then a.toRow else r) := by
  unfold upsert_advisory
  rw [h]
  rfl

theorem upsert_advisories_new (db : DB) (a : Advisory)
    (h : db.advisories.any (fun r => r.advisory_id == a.advisory_id) = false) :
    (upsert_advisory db a).advisories = db.advisories ++ [a.toRow] := by
  unfold upsert_advisory
  rw [h]
  rfl

theorem toRow_id (a : Advisory) : a.toRow.advisory_id = a.advisory_id := rfl

theorem map_ids_update (rows : List AdvRow) (a : Advisory) :
    (rows.map fun r =>
        if r.advisory_id = a.advisory_id then a.toRow else r).map
      AdvRow.advisory_id = rows.map AdvRow.advisory_id := by
  induction rows with
  | nil => rfl
  | cons r rows ih =>
    simp only [List.map_cons, ih]
    by_cases h : r.advisory_id = a.advisory_id
    · rw [if_pos h, toRow_id, h]
    · rw [if_neg h]

theorem filter_update_nil (rows : List AdvRow) (a : Advisory)
    (hout : a.advisory_id ∉ rows.map AdvRow.advisory_id) :
    (rows.map fun r =>
        if r.advisory_id = a.advisory_id then a.toRow else r).filter
      (fun r => r.advisory_id == a.advisory_id) = [] := by
  induction rows with
  | nil => rfl
  | cons r rows ih =>
    simp only [List.map_cons, List.mem_cons, not_or] at hout
    have hne : r.advisory_id ≠ a.advisory_id := fun e => hout.1 e.symm
    simp only [List.map_cons, if_neg hne]
    rw [List.filter_cons, if_neg (by simpa using hne)]
    exact ih hout.2

theorem filter_update_one (rows : List AdvRow) (a : Advisory)
    (hnd : (rows.map AdvRow.advisory_id).Nodup)
    (hmem : a.advisory_id ∈ rows.map AdvRow.advisory_id) :
    (rows.map fun r =>
        if r.advisory_id = a.advisory_id then a.toRow else r).filter
      (fun r => r.advisory_id == a.advisory_id) = [a.toRow] := by
  induction rows with
  | nil => simp at hmem
  | cons r rows ih =>
    simp only [List.map_cons, List.nodup_cons] at hnd
    by_cases h : r.advisory_id = a.advisory_id
    · have hout : a.advisory_id ∉ rows.map AdvRow.advisory_id := h ▸ hnd.1
      simp only [List.map_cons, if_pos h]
      rw [List.filter_cons, if_pos (by simp [toRow_id]), filter_update_nil rows a hout]
    · have hmem' : a.advisory_id ∈ rows.map AdvRow.advisory_id := by
        simp only [List.map_cons, List.mem_cons] at hmem
        exact hmem.resolve_left (fun e => h e.symm)
      simp only [List.map_cons, if_neg h]
      rw [List.filter_cons, if_neg (by simpa using h)]
      exact ih hnd.2 hmem'

theorem filter_append_one (rows : List AdvRow) (a : Advisory)
    (hout : a.advisory_id ∉ rows.map AdvRow.advisory_id) :
    (rows ++ [a.toRow]).filter
      (fun r => r.advisory_id == a.advisory_id) = [a.toRow] := by
  induction rows with
  | nil => simp [toRow_id]
  | cons r rows ih =>
    simp only [List.map_cons, List.mem_cons, not_or] at hout
    have hne : r.advisory_id ≠ a.advisory_id := fun e => hout.1 e.symm
    rw [List.cons_append, List.filter_cons, if_neg (by simpa using hne)]
    exact ih hout.2

theorem any_key_iff (rows : List AdvRow) (key : String) :
    rows.any (fun r => r.advisory_id == key) = true
      ↔ key ∈ rows.map AdvRow.advisory_id := by
  simp only [List.any_eq_true, beq_iff_eq, List.mem_map]

theorem upsert_key_filter (db : DB) (a : Advisory)
    (hnd : (db.advisories.map AdvRow.advisory_id).Nodup) :
    ((upsert_advisory db a).advisories).filter
      (fun r => r.advisory_id == a.advisory_id) = [a.toRow] := by
  cases hany : db.advisories.any (fun r => r.advisory_id == a.advisory_id) with
  | true =>
    rw [upsert_advisories_found db a hany]
    exact filter_update_one db.advisories a hnd ((any_key_iff _ _).mp hany)
  | false =>
    rw [upsert_advisories_new db a hany]
    apply filter_append_one
    intro hmem
    have := (any_key_iff db.advisories a.advisory_id).mpr hmem
    rw [hany] at this
    exact Bool.false_ne_true this

theorem upsert_nodup (db : DB) (a : Advisory)
    (hnd : (db.advisories.map AdvRow.advisory_id).Nodup) :
    ((upsert_advisory db a).advisories.map AdvRow.advisory_id).Nodup := by
  cases hany : db.advisories.any (fun r => r.advisory_id == a.advisory_id) with
  | true => rw [upsert_advisories_found db a hany, map_ids_update]; exact hnd
  | false =>
    rw [upsert_advisories_new db a hany, List.map_append]
    simp only [List.map_cons, List.map_nil, toRow_id]
    rw [List.nodup_append]
    refine ⟨hnd, List.nodup_singleton _, ?_⟩
    intro x hx
    simp only [List.mem_singleton]
    intro he
    have := (any_key_iff db.advisories a.advisory_id).mpr (he ▸ hx)
    rw [hany] at this
    exact Bool.false_ne_true this

/-- C9: two successive upserts of the same advisory id leave exactly one row
for that id, all of whose fields are those of the second upsert; and the
advisory count of `stats()` is 1 when that id is the only one ever
upserted. -/
theorem claim_C9_upsert_no_duplicate (db : DB) (a1 a2 : Advisory)
    (hnd : (db.advisories.map AdvRow.advisory_id).Nodup)
    (hid : a1.advisory_id = a2.advisory_id) :
    ((upsert_advisory (upsert_advisory db a1) a2).advisories.filter
        (fun r => r.advisory_id == a2.advisory_id)) = [a2.toRow]
      ∧ (get_stats (upsert_advisory (upsert_advisory emptyDB a1) a2)).advisories
          = 1 := by
  refine ⟨upsert_key_filter _ a2 (upsert_nodup db a1 hnd), ?_⟩
  simp [upsert_advisory, get_stats, emptyDB, Advisory.toRow, hid]

/-! ## C2 — pagination of live discovery -/

theorem newEntries_congr :
    ∀ (es : List (String × String)) (s1 s2 : List String),
      (∀ x, x ∈ s1 ↔ x ∈ s2) → newEntries s1 es = newEntries s2 es := by
  intro es
  induction es with
  | nil => intro s1 s2 _; rfl
  | cons e rest ih =>
    intro s1 s2 h
    obtain ⟨idv, t⟩ := e
    simp only [newEntries]
    by_cases hm : idv ∈ s1
    · rw [if_pos hm, if_pos ((h idv).mp hm)]
      exact ih s1 s2 h
    · rw [if_neg hm, if_neg (fun hx => hm ((h idv).mpr hx))]
      have h' : ∀ x, x ∈ idv :: s1 ↔ x ∈ idv :: s2 := by
        intro x
        simp only [List.mem_cons]
        rw [h x]
      rw [ih _ _ h']

theorem seenAfter_succ_some (fetch : Nat → Option (List Link))
    (known : List String) (n : Nat) (page : List Link)
    (h : fetch n = some page) :
    seenAfter fetch known (n + 1)
      = seenAfter fetch known n
          ++ (pageNew page (seenAfter fetch known n)).map Prod.fst := by
  show (match fetch n with
    | none => seenAfter fetch known n
    | some pg =>
      seenAfter fetch known n
        ++ (pageNew pg (seenAfter fetch known n)).map Prod.fst) = _
  rw [h]

theorem advisoriesUpTo_succ_some (fetch : Nat → Option (List Link))
    (known : List String) (n : Nat) (page : List Link)
    (h : fetch n = some page) :
    advisoriesUpTo fetch known (n + 1)
      = advisoriesUpTo fetch known n
          ++ (pageNew page (seenAfter fetch known n)).map mkDiscovered := by
  show (advisoriesUpTo fetch known n ++
    match fetch n with
    | none => []
    | some pg => (pageNew pg (seenAfter fetch known n)).map mkDiscovered) = _
  rw [h]

theorem advisoriesUpTo_succ_none (fetch : Nat → Option (List Link))
    (known : List String) (n : Nat) (h : fetch n = none) :
    advisoriesUpTo fetch known (n + 1) = advisoriesUpTo fetch known n := by
  show (advisoriesUpTo fetch known n ++
    match fetch n with
    | none => []
    | some pg => (pageNew pg (seenAfter fetch known n)).map mkDiscovered)
      = _
  rw [h]
  simp

theorem processLinks_spec (known : List String) :
    ∀ (links : List Link) (disc : List (String × Advisory)) (lf np : Nat),
      processLinks known links disc lf np
        = (disc ++ (newEntries (known ++ disc.map Prod.fst)
              (links.filterMap relevantEntry)).map
              (fun p => (p.1, mkDiscovered p)),
           lf + (links.filterMap relevantEntry).length,
           np + (newEntries (known ++ disc.map Prod.fst)
              (links.filterMap relevantEntry)).length) := by
  intro links
  induction links with
  | nil => intro disc lf np; simp [processLinks, newEntries]
  | cons l rest ih =>
    intro disc lf np
    cases hrel : relevantEntry l with
    | none =>
      simp only [processLinks, hrel, List.filterMap_cons]
      exact ih disc lf np
    | some p =>
      obtain ⟨advId, t⟩ := p
      by_cases hm : advId ∈ known ++ disc.map Prod.fst
      · have hm' : advId ∈ known ∨ advId ∈ disc.map Prod.fst :=
          List.mem_append.mp hm
        simp only [processLinks, hrel, List.filterMap_cons, if_pos hm',
          newEntries, if_pos hm, List.length_cons]
        rw [ih disc (lf + 1) np]
        simp only [Prod.mk.injEq, true_and, and_true]
        omega
      · have hm' : ¬ (advId ∈ known ∨ advId ∈ disc.map Prod.fst) :=
          fun hx => hm (List.mem_append.mpr hx)
        simp only [processLinks, hrel, List.filterMap_cons, if_neg hm',
          newEntries, if_neg hm, List.length_cons]
        change processLinks known rest
            (disc ++ [(advId, mkDiscovered (advId, t))]) (lf + 1) (np + 1) = _
        rw [ih (disc ++ [(advId, mkDiscovered (advId, t))]) (lf + 1) (np + 1)]
        have hcongr :
            newEntries
                (known ++ (disc ++ [(advId, mkDiscovered (advId, t))]).map Prod.fst)
                (rest.filterMap relevantEntry)
              = newEntries (advId :: (known ++ disc.map Prod.fst))
                (rest.filterMap relevantEntry) := by
          apply newEntries_congr
          intro x
          simp only [List.map_append, List.map_cons, List.map_nil,
            List.mem_append, List.mem_cons, List.not_mem_nil, or_false]
          constructor
          · rintro (h1 | h2 | h3)
            · exact Or.inr (Or.inl h1)
            · exact Or.inr (Or.inr h2)
            · exact Or.inl h3
          · rintro (h1 | h2 | h3)
            · exact Or.inr (Or.inr h1)
            · exact Or.inl h2
            · exact Or.inr (Or.inl h3)
        rw [hcongr]
        simp only [Prod.mk.injEq, List.map_cons, List.append_assoc,
          List.singleton_append, List.length_cons, true_and, and_true]
        omega

theorem runPages_spec (fetch : Nat → Option (List Link)) (known : List String) :
    ∀ (fuel pageNum : Nat) (disc : List (String × Advisory)),
      (∀ x, (x ∈ known ∨ x ∈ disc.map Prod.fst) ↔ x ∈ seenAfter fetch known pageNum) →
      disc.map Prod.snd = advisoriesUpTo fetch known pageNum →
      (runPages fetch known fuel pageNum disc).2 ≤ fuel
        ∧ (fuel ≠ 0 → (runPages fetch known fuel pageNum disc).2 ≠ 0)
        ∧ (∀ j, j + 1 < (runPages fetch known fuel pageNum disc).2 →
            ¬ stopOn fetch known (pageNum + j))
        ∧ ((runPages fetch known fuel pageNum disc).2 < fuel →
            stopOn fetch known (pageNum + (runPages fetch known fuel pageNum disc).2 - 1))
        ∧ (runPages fetch known fuel pageNum disc).1.map Prod.snd
            = advisoriesUpTo fetch known
                (pageNum + (runPages fetch known fuel pageNum disc).2) := by
  intro fuel
  induction fuel with
  | zero =>
    intro pageNum disc hseen hadv
    simp only [runPages]
    refine ⟨Nat.le_refl 0, fun h => absurd rfl h, ?_, ?_, ?_⟩
    · intro j hj; omega
    · intro h; omega
    · simpa using hadv
  | succ f ih =>
    intro pageNum disc hseen hadv
    cases hf : fetch pageNum with
    | none =>
      simp only [runPages, hf]
      refine ⟨by omega, fun _ => by omega, ?_, ?_, ?_⟩
      · intro j hj; omega
      · intro _
        show stopOn fetch known (pageNum + 1 - 1)
        simp only [Nat.add_sub_cancel]
        unfold stopOn
        rw [hf]
        trivial
      · show disc.map Prod.snd = advisoriesUpTo fetch known (pageNum + 1)
        rw [advisoriesUpTo_succ_none fetch known pageNum hf]
        exact hadv
    | some page =>
      have hproc := processLinks_spec known page disc 0 0
      have hseen' : newEntries (known ++ disc.map Prod.fst)
            (page.filterMap relevantEntry)
          = pageNew page (seenAfter fetch known pageNum) := by
        unfold pageNew
        apply newEntries_congr
        intro x
        rw [List.mem_append]
        exact hseen x
      have hL : (processLinks known page disc 0 0).2.1
          = (page.filterMap relevantEntry).length := by
        rw [hproc]
        simp
      have hN : (processLinks known page disc 0 0).2.2
          = (pageNew page (seenAfter fetch known pageNum)).length := by
        rw [hproc, hseen']
        simp
      have h1 : (processLinks known page disc 0 0).1
          = disc ++ (pageNew page (seenAfter fetch known pageNum)).map
              (fun p => (p.1, mkDiscovered p)) := by
        rw [hproc, hseen']
      have hadvNext : (processLinks known page disc 0 0).1.map Prod.snd
          = advisoriesUpTo fetch known (pageNum + 1) := by
        rw [h1, List.map_append, hadv,
          advisoriesUpTo_succ_some fetch known pageNum page hf, List.map_map]
        rfl
      by_cases hstop :
          (processLinks known page disc 0 0).2.1 = 0
            ∨ ((processLinks known page disc 0 0).2.2 = 0
                ∧ 0 < (processLinks known page disc 0 0).2.1)
      · have hrun : runPages fetch known (f + 1) pageNum disc
            = ((processLinks known page disc 0 0).1, 1) := by
          simp only [runPages, hf, if_pos hstop]
        rw [hrun]
        have hstopOn : stopOn fetch known pageNum := by
          unfold stopOn
          rw [hf]
          rw [hL, hN] at hstop
          rcases hstop with h0 | ⟨hn0, _⟩
          · left
            unfold linksFoundOn
            exact h0
          · right
            exact hn0
        refine ⟨by omega, fun _ => by omega, ?_, fun _ => ?_, ?_⟩
        · intro j hj
          simp only at hj
          omega
        · simpa using hstopOn
        · show (processLinks known page disc 0 0).1.map Prod.snd
              = advisoriesUpTo fetch known (pageNum + 1)
          exact hadvNext
      · have hrun : runPages fetch known (f + 1) pageNum disc
            = ((runPages fetch known f (pageNum + 1)
                  (processLinks known page disc 0 0).1).1,
               (runPages fetch known f (pageNum + 1)
                  (processLinks known page disc 0 0).1).2 + 1) := by
          simp only [runPages, hf, if_neg hstop]
        have hnostop : ¬ stopOn fetch known pageNum := by
          unfold stopOn
          rw [hf]
          rw [hL, hN] at hstop
          push_neg at hstop
          intro hcon
          rcases hcon with h0 | h0
          · unfold linksFoundOn at h0
            exact hstop.1 h0
          · have h2 := hstop.2 h0
            have h3 := hstop.1
            omega
        have hseen2 : ∀ x,
            (x ∈ known ∨ x ∈ (processLinks known page disc 0 0).1.map Prod.fst)
              ↔ x ∈ seenAfter fetch known (pageNum + 1) := by
          intro x
          rw [h1, seenAfter_succ_some fetch known pageNum page hf]
          simp only [List.map_append, List.mem_append, List.map_map]
          constructor
          · rintro (hx | hx | hx)
            · exact Or.inl ((hseen x).mp (Or.inl hx))
            · exact Or.inl ((hseen x).mp (Or.inr hx))
            · right
              obtain ⟨p, hp, hpe⟩ := List.mem_map.mp hx
              exact List.mem_map.mpr ⟨p, hp, hpe⟩
          · rintro (hx | hx)
            · rcases (hseen x).mpr hx with h | h
              · exact Or.inl h
              · exact Or.inr (Or.inl h)
            · right; right
              obtain ⟨p, hp, hpe⟩ := List.mem_map.mp hx
              exact List.mem_map.mpr ⟨p, hp, hpe⟩
        obtain ⟨ih1, ih2, ih3, ih4, ih5⟩ :=
          ih (pageNum + 1) (processLinks known page disc 0 0).1 hseen2 hadvNext
        rw [hrun]
        refine ⟨by simp only; omega, fun _ => by simp only; omega, ?_, ?_, ?_⟩
        · intro j hj
          simp only at hj
          cases j with
          | zero => simpa using hnostop
          | succ j' =>
            have := ih3 j' (by omega)
            have harith : pageNum + 1 + j' = pageNum + (j' + 1) := by omega
            rw [harith] at this
            exact this
        · intro hlt
          simp only at hlt ⊢
          have hr2 : (runPages fetch known f (pageNum + 1)
              (processLinks known page disc 0 0).1).2 < f := by omega
          have hne : (runPages fetch known f (pageNum + 1)
              (processLinks known page disc 0 0).1).2 ≠ 0 := by
            apply ih2
            omega
          have := ih4 hr2
          have harith : pageNum + 1 + (runPages fetch known f (pageNum + 1)
                (processLinks known page disc 0 0).1).2 - 1
              = pageNum + ((runPages fetch known f (pageNum + 1)
                (processLinks known page disc 0 0).1).2 + 1) - 1 := by omega
          rw [harith] at this
          exact this
        · simp only
          have harith : pageNum + 1 + (runPages fetch known f (pageNum + 1)
              (processLinks known page disc 0 0).1).2
              = pageNum + ((runPages fetch known f (pageNum + 1)
                (processLinks known page disc 0 0).1).2 + 1) := by omega
          rw [harith] at ih5
          exact ih5

/-- C2: live discovery fetches pages in order from page 0; it advances past
a page exactly when the fetch succeeded, the page had relevant links, and it
had new ids; it never fetches more than the page cap; it returns the newly
discovered advisories in first-discovery order; and in the concrete
two-page scenario (page 0: two relevant new links, page 1: none) it makes
exactly 2 fetches and returns the 2 advisories. -/
theorem claim_C2_pagination (fetch : Nat → Option (List Link))
    (known : List String) (maxPages : Nat) :
    (discover_advisories_live fetch known maxPages).2 ≤ maxPages
      ∧ (maxPages ≠ 0 → (discover_advisories_live fetch known maxPages).2 ≠ 0)
      ∧ (∀ n, n + 1 < (discover_advisories_live fetch known maxPages).2 →
          ¬ stopOn fetch known n)
      ∧ ((discover_advisories_live fetch known maxPages).2 < maxPages →
          stopOn fetch known
            ((discover_advisories_live fetch known maxPages).2 - 1))
      ∧ (discover_advisories_live fetch known maxPages).1
          = advisoriesUpTo fetch known
              (discover_advisories_live fetch known maxPages).2
      ∧ ((discover_advisories_live scenFetch [] 10).2 = 2
          ∧ (discover_advisories_live scenFetch [] 10).1
              = [mkDiscovered ("aa25-100a", "#StopRansomware: FakeLocker"),
                 mkDiscovered ("aa25-098a", "#StopRansomware: AnotherRansom")]) := by
  obtain ⟨h1, h2, h3, h4, h5⟩ := runPages_spec fetch known maxPages 0 []
    (by intro x; simp [seenAfter]) (by simp [advisoriesUpTo])
  refine ⟨h1, h2, ?_, ?_, ?_, by decide, by decide⟩
  · intro n hn
    have := h3 n hn
    simpa using this
  · intro hlt
    have := h4 hlt
    simpa using this
  · show (runPages fetch known maxPages 0 []).1.map Prod.snd = _
    simpa using h5

theorem claim_C2_witness :
    ¬ stopOn scenFetch [] 0
      ∧ (discover_advisories_live scenFetch [] 10).2 ≤ 10 :=
  ⟨(claim_C2_pagination scenFetch [] 10).2.2.1 0 (by decide),
   (claim_C2_pagination scenFetch [] 10).1⟩

/-! ## C3 — merge of live results and seed catalog -/

theorem dictInsert_not_mem (m : List (String × Advisory)) (a : Advisory)
    (h : a.advisory_id ∉ m.map Prod.fst) :
    dictInsert m a = m ++ [(a.advisory_id, a)] := by
  unfold dictInsert
  rw [if_neg h]

theorem live_fold_eq :
    ∀ (live : List Advisory) (m : List (String × Advisory)),
      (∀ b ∈ live, b.advisory_id ∉ m.map Prod.fst) →
      (live.map (fun a => a.advisory_id)).Nodup →
      live.foldl dictInsert m = m ++ live.map (fun a => (a.advisory_id, a)) := by
  intro live
  induction live with
  | nil => intro m _ _; simp
  | cons a live ih =>
    intro m hdisj hnd
    simp only [List.map_cons, List.nodup_cons] at hnd
    simp only [List.foldl_cons]
    rw [dictInsert_not_mem m a (hdisj a (List.mem_cons_self a live))]
    rw [ih (m ++ [(a.advisory_id, a)]) ?_ hnd.2]
    · simp
    · intro b hb
      simp only [List.map_append, List.mem_append, not_or]
      refine ⟨hdisj b (List.mem_cons_of_mem a hb), ?_⟩
      simp only [List.map_cons, List.map_nil, List.mem_singleton]
      intro he
      exact hnd.1 (he ▸ List.mem_map_of_mem (fun x => x.advisory_id) hb)

theorem catStep_mem_super (m : List (String × Advisory)) (a : Advisory) :
    ∀ p ∈ m, p ∈ catStep m a := by
  intro p hp
  unfold catStep
  split
  · exact hp
  · exact List.mem_append_left _ hp

theorem cat_fold_mem_mono :
    ∀ (catalog : List Advisory) (m : List (String × Advisory)) (p),
      p ∈ m → p ∈ catalog.foldl catStep m := by
  intro catalog
  induction catalog with
  | nil => intro m p hp; exact hp
  | cons a catalog ih =>
    intro m p hp
    exact ih (catStep m a) p (catStep_mem_super m a p hp)

theorem cat_fold_key_mono :
    ∀ (catalog : List Advisory) (m : List (String × Advisory)) (k : String),
      k ∈ m.map Prod.fst → k ∈ (catalog.foldl catStep m).map Prod.fst := by
  intro catalog m k hk
  obtain ⟨p, hp, he⟩ := List.mem_map.mp hk
  exact he ▸ List.mem_map_of_mem Prod.fst (cat_fold_mem_mono catalog m p hp)

theorem cat_fold_src :
    ∀ (catalog : List Advisory) (m : List (String × Advisory)) (q),
      q ∈ catalog.foldl catStep m →
      q ∈ m ∨ (q.1 ∉ m.map Prod.fst ∧ ∃ a ∈ catalog, q = (a.advisory_id, a)) := by
  intro catalog
  induction catalog with
  | nil => intro m q hq; exact Or.inl hq
  | cons a catalog ih =>
    intro m q hq
    rcases ih (catStep m a) q hq with hmem | ⟨hkey, c, hc, he⟩
    · unfold catStep at hmem
      by_cases hk : a.advisory_id ∈ m.map Prod.fst
      · rw [if_pos hk] at hmem; exact Or.inl hmem
      · rw [if_neg hk] at hmem
        rcases List.mem_append.mp hmem with h | h
        · exact Or.inl h
        · refine Or.inr ⟨?_, a, List.mem_cons_self a catalog, ?_⟩
          · have : q = (a.advisory_id, a) := by simpa using h
            rw [this]; exact hk
          · simpa using h
    · refine Or.inr ⟨?_, c, List.mem_cons_of_mem a hc, he⟩
      intro hq1
      obtain ⟨p, hp, hpe⟩ := List.mem_map.mp hq1
      exact hkey (hpe ▸ List.mem_map_of_mem Prod.fst (catStep_mem_super m a p hp))

theorem cat_fold_key_present :
    ∀ (catalog : List Advisory) (m : List (String × Advisory)),
      ∀ a ∈ catalog,
        a.advisory_id ∈ (catalog.foldl catStep m).map Prod.fst := by
  intro catalog
  induction catalog with
  | nil => intro m a ha; simp at ha
  | cons b catalog ih =>
    intro m a ha
    rcases List.mem_cons.mp ha with he | hmem
    · subst he
      apply cat_fold_key_mono catalog (catStep m a)
      unfold catStep
      by_cases hk : a.advisory_id ∈ m.map Prod.fst
      · rw [if_pos hk]; exact hk
      · rw [if_neg hk]; simp
    · exact ih (catStep m b) a hmem

theorem catStep_kv (m : List (String × Advisory)) (a : Advisory)
    (h : ∀ p ∈ m, (p.2).advisory_id = p.1) :
    ∀ p ∈ catStep m a, (p.2).advisory_id = p.1 := by
  intro p hp
  unfold catStep at hp
  by_cases hk : a.advisory_id ∈ m.map Prod.fst
  · rw [if_pos hk] at hp; exact h p hp
  · rw [if_neg hk] at hp
    rcases List.mem_append.mp hp with hm | hm
    · exact h p hm
    · have : p = (a.advisory_id, a) := by simpa using hm
      rw [this]

theorem cat_fold_kv :
    ∀ (catalog : List Advisory) (m : List (String × Advisory)),
      (∀ p ∈ m, (p.2).advisory_id = p.1) →
      ∀ p ∈ catalog.foldl catStep m, (p.2).advisory_id = p.1 := by
  intro catalog
  induction catalog with
  | nil => intro m h p hp; exact h p hp
  | cons a catalog ih =>
    intro m h p hp
    exact ih (catStep m a) (catStep_kv m a h) p hp

/-- C3: the merge of live results and the seed catalog keeps exactly the
union of the advisory ids — no advisory from either source is dropped —
and for an id present in live, the merged entry is the live entry itself
(every field, in particular the title). -/
theorem claim_C3_merge_semantics (live catalog : List Advisory)
    (hnd : (live.map (fun a => a.advisory_id)).Nodup) :
    (∀ advId : String,
        (∃ b ∈ mergeAdvisories live catalog, b.advisory_id = advId)
          ↔ ((∃ a ∈ live, a.advisory_id = advId)
              ∨ (∃ a ∈ catalog, a.advisory_id = advId)))
      ∧ (∀ a ∈ live, ∀ b ∈ mergeAdvisories live catalog,
          b.advisory_id = a.advisory_id → b = a) := by
  have hlive : live.foldl dictInsert []
      = live.map (fun a => (a.advisory_id, a)) := by
    have := live_fold_eq live [] (by simp) hnd
    simpa using this
  have hkv : ∀ p ∈ catalog.foldl catStep
      (live.map (fun a => (a.advisory_id, a))), (p.2).advisory_id = p.1 := by
    apply cat_fold_kv
    intro p hp
    obtain ⟨a, _, he⟩ := List.mem_map.mp hp
    rw [← he]
  have hmerge : mergeAdvisories live catalog
      = (catalog.foldl catStep (live.map (fun a => (a.advisory_id, a)))).map
          Prod.snd := by
    unfold mergeAdvisories
    rw [hlive]
  constructor
  · intro advId
    constructor
    · rintro ⟨b, hb, hbid⟩
      rw [hmerge] at hb
      obtain ⟨q, hq, hqe⟩ := List.mem_map.mp hb
      rcases cat_fold_src catalog _ q hq with hm | ⟨_, c, hc, he⟩
      · obtain ⟨a, ha, hae⟩ := List.mem_map.mp hm
        refine Or.inl ⟨a, ha, ?_⟩
        rw [← hbid, ← hqe, ← hae]
      · refine Or.inr ⟨c, hc, ?_⟩
        rw [← hbid, ← hqe, he]
    · rintro (⟨a, ha, hae⟩ | ⟨a, ha, hae⟩)
      · refine ⟨a, ?_, hae⟩
        rw [hmerge]
        exact List.mem_map_of_mem Prod.snd
          (cat_fold_mem_mono catalog _ (a.advisory_id, a)
            (List.mem_map_of_mem (fun x => (x.advisory_id, x)) ha))
      · have hkey := cat_fold_key_present catalog
          (live.map (fun x => (x.advisory_id, x))) a ha
        obtain ⟨q, hq, hqe⟩ := List.mem_map.mp hkey
        refine ⟨q.2, ?_, ?_⟩
        · rw [hmerge]; exact List.mem_map_of_mem Prod.snd hq
        · rw [hkv q hq, hqe, hae]
  · intro a ha b hb hid
    rw [hmerge] at hb
    obtain ⟨q, hq, hqe⟩ := List.mem_map.mp hb
    rcases cat_fold_src catalog _ q hq with hm | ⟨hkey, c, hc, he⟩
    · obtain ⟨a', ha', hae⟩ := List.mem_map.mp hm
      have hba : b = a' := by rw [← hqe, ← hae]
      have : a'.advisory_id = a.advisory_id := by rw [← hba, hid]
      rw [hba]
      exact List.inj_on_of_nodup_map hnd ha' ha this
    · exfalso
      apply hkey
      have hq1 : q.1 = a.advisory_id := by
        rw [← hkv q hq, hqe, hid]
      rw [hq1]
      exact List.mem_map.mpr
        ⟨(a.advisory_id, a), List.mem_map_of_mem (fun x => (x.advisory_id, x)) ha, rfl⟩

theorem claim_C3_witness :
    ∃ a ∈ mergeAdvisories [advW2] [advW], a.advisory_id = "aa23-061a" :=
  ((claim_C3_merge_semantics [advW2] [advW] (by simp)).1 "aa23-061a").mpr
    (Or.inl ⟨advW2, by simp, rfl⟩)

theorem claim_C9_witness :
    ((upsert_advisory (upsert_advisory emptyDB advW) advW2).advisories.filter
        (fun r => r.advisory_id == advW2.advisory_id)) = [advW2.toRow]
      ∧ (get_stats (upsert_advisory (upsert_advisory emptyDB advW) advW2)).advisories
          = 1 :=
  claim_C9_upsert_no_duplicate emptyDB advW advW2 (by simp [emptyDB]) rfl

/-! ## C5 — IPv4 extraction of dotted-quad literals

Character-level facts about canonical digit characters, then a
characterization of the octet candidate lists, then the behaviour of the
backtracking matcher and of the scanner on dotted-quad inputs. -/

theorem digitChar_isDigit (k : Nat) (h : k ≤ 9) :
    (digitChar k).isDigit = true := by
  interval_cases k <;> decide

theorem wordChar_of_isDigit (c : Char) (h : c.isDigit = true) :
    wordChar c = true := by
  simp [wordChar, Char.isAlphanum, h]

theorem ne_dot_of_isDigit (c : Char) (h : c.isDigit = true) : c ≠ '.' := by
  intro e
  rw [e] at h
  exact absurd h (by decide)

theorem digitChar_eq_two (k : Nat) (h : k ≤ 9) :
    (digitChar k = '2') ↔ k = 2 := by
  interval_cases k <;> decide

theorem digitChar_eq_five (k : Nat) (h : k ≤ 9) :
    (digitChar k = '5') ↔ k = 5 := by
  interval_cases k <;> decide

theorem digitChar_ge_zero (k : Nat) (h : k ≤ 9) : '0' ≤ digitChar k := by
  interval_cases k <;> decide

theorem digitChar_le_five (k : Nat) (h : k ≤ 9) :
    (digitChar k ≤ '5') ↔ k ≤ 5 := by
  interval_cases k <;> decide

theorem digitChar_le_four (k : Nat) (h : k ≤ 9) :
    (digitChar k ≤ '4') ↔ k ≤ 4 := by
  interval_cases k <;> decide

theorem digitChar_le_one (k : Nat) (h : k ≤ 9) :
    (digitChar k = '0' ∨ digitChar k = '1') ↔ k ≤ 1 := by
  interval_cases k <;> decide

theorem octetChars_lt_ten (n : Nat) (h : n < 10) :
    octetChars n = [digitChar n] := by
  unfold octetChars
  rw [if_pos h]

theorem octetChars_lt_hundred (n : Nat) (h1 : ¬ n < 10) (h2 : n < 100) :
    octetChars n = [digitChar (n / 10), digitChar (n % 10)] := by
  unfold octetChars
  rw [if_neg h1, if_pos h2]

theorem octetChars_big (n : Nat) (h1 : ¬ n < 10) (h2 : ¬ n < 100) :
    octetChars n
      = [digitChar (n / 100), digitChar (n / 10 % 10), digitChar (n % 10)] := by
  unfold octetChars
  rw [if_neg h1, if_neg h2]

theorem octetChars_digits (n : Nat) (h : n ≤ 999) :
    ∀ c ∈ octetChars n, c.isDigit = true := by
  by_cases h1 : n < 10
  · rw [octetChars_lt_ten n h1]
    intro c hc
    simp only [List.mem_singleton] at hc
    subst hc
    exact digitChar_isDigit n (by omega)
  · by_cases h2 : n < 100
    · rw [octetChars_lt_hundred n h1 h2]
      intro c hc
      simp only [List.mem_cons, List.not_mem_nil, or_false] at hc
      rcases hc with hc | hc <;> subst hc <;> apply digitChar_isDigit <;> omega
    · rw [octetChars_big n h1 h2]
      intro c hc
      simp only [List.mem_cons, List.not_mem_nil, or_false] at hc
      rcases hc with hc | hc | hc <;> subst hc <;>
        apply digitChar_isDigit <;> omega

theorem octetChars_ne_nil (n : Nat) : octetChars n ≠ [] := by
  by_cases h1 : n < 10
  · rw [octetChars_lt_ten n h1]; simp
  · by_cases h2 : n < 100
    · rw [octetChars_lt_hundred n h1 h2]; simp
    · rw [octetChars_big n h1 h2]; simp

theorem dot_not_digit : ('.' : Char).isDigit = false := by decide

theorem dot_not_ge_zero : ¬ ('0' ≤ ('.' : Char)) := by decide

theorem dot_ne_five : ('.' : Char) ≠ '5' := by decide

theorem octetCands_single (d : Nat) (hd : d ≤ 9) (rest : List Char)
    (hrest : rest = [] ∨ ∃ r, rest = '.' :: r) :
    octetCands (digitChar d :: rest) = [1] := by
  have h6 := digitChar_isDigit d hd
  rcases hrest with h | ⟨r, h⟩ <;> subst h
  · simp [octetCands, octetAlt1, octetAlt2, octetAlt3a, octetAlt3b, h6]
  · cases r with
    | nil =>
      simp [octetCands, octetAlt1, octetAlt2, octetAlt3a, octetAlt3b, h6,
        dot_not_digit]
    | cons y r' =>
      simp [octetCands, octetAlt1, octetAlt2, octetAlt3a, octetAlt3b, h6,
        dot_not_digit, dot_not_ge_zero, dot_ne_five]

theorem octetCands_double (dx dy : Nat) (hx : dx ≤ 9) (hy : dy ≤ 9)
    (rest : List Char) (hrest : rest = [] ∨ ∃ r, rest = '.' :: r) :
    (octetCands (digitChar dx :: digitChar dy :: rest)).head? = some 2
      ∧ ∀ m ∈ octetCands (digitChar dx :: digitChar dy :: rest), m ≤ 2 := by
  have h6x := digitChar_isDigit dx hx
  have h6y := digitChar_isDigit dy hy
  by_cases h01 : digitChar dx = '0' ∨ digitChar dx = '1' <;>
    rcases hrest with h | ⟨r, h⟩ <;> subst h <;>
      simp [octetCands, octetAlt1, octetAlt2, octetAlt3a, octetAlt3b, h6x,
        h6y, h01, dot_not_digit, dot_not_ge_zero, dot_ne_five]

theorem octetCands_le_three (l : List Char) :
    ∀ m ∈ octetCands l, m ≤ 3 := by
  match l with
  | [] => simp [octetCands, octetAlt1, octetAlt2, octetAlt3a, octetAlt3b]
  | [a] =>
    simp only [octetCands, octetAlt1, octetAlt2, octetAlt3a, octetAlt3b]
    split_ifs <;> simp
  | [a, b] =>
    simp only [octetCands, octetAlt1, octetAlt2, octetAlt3a, octetAlt3b]
    split_ifs <;> simp
  | a :: b :: c :: r =>
    simp only [octetCands, octetAlt1, octetAlt2, octetAlt3a, octetAlt3b]
    split_ifs <;> simp

theorem octetCands_triple_good (dx dy dz : Nat) (hx : dx ≤ 9) (hy : dy ≤ 9)
    (hz : dz ≤ 9) (h100 : 1 ≤ dx) (hv : 100 * dx + 10 * dy + dz ≤ 255)
    (rest : List Char) :
    (octetCands
        (digitChar dx :: digitChar dy :: digitChar dz :: rest)).head?
      = some 3 := by
  have h6y := digitChar_isDigit dy hy
  have h6z := digitChar_isDigit dz hz
  by_cases hdx1 : dx = 1
  · subst hdx1
    have h01 : digitChar 1 = '0' ∨ digitChar 1 = '1' := by decide
    have hne2 : ¬ digitChar 1 = '2' := by decide
    simp [octetCands, octetAlt1, octetAlt2, octetAlt3a, octetAlt3b, h6y, h6z,
      h01, hne2]
  · have hdx2 : dx = 2 := by omega
    subst hdx2
    have h2 : digitChar 2 = '2' := by decide
    have hn01 : ¬ (digitChar 2 = '0' ∨ digitChar 2 = '1') := by decide
    by_cases hy5 : dy = 5
    · subst hy5
      have h5 : digitChar 5 = '5' := by decide
      have hn4 : ¬ digitChar 5 ≤ '4' := by decide
      have hz0 : '0' ≤ digitChar dz := digitChar_ge_zero dz hz
      have hz5 : digitChar dz ≤ '5' := (digitChar_le_five dz hz).mpr (by omega)
      simp [octetCands, octetAlt1, octetAlt2, octetAlt3a, octetAlt3b, h6y,
        h6z, h2, h5, hn4, hn01, hz0, hz5]
    · have hy4 : dy ≤ 4 := by omega
      have hne5 : ¬ digitChar dy = '5' :=
        fun h => hy5 ((digitChar_eq_five dy hy).mp h)
      have hy0 : '0' ≤ digitChar dy := digitChar_ge_zero dy hy
      have hy4' : digitChar dy ≤ '4' := (digitChar_le_four dy hy).mpr hy4
      simp [octetCands, octetAlt1, octetAlt2, octetAlt3a, octetAlt3b, h6y,
        h6z, h2, hne5, hy0, hy4', hn01]

theorem octetCands_triple_bad (dx dy dz : Nat) (hx : dx ≤ 9) (hy : dy ≤ 9)
    (hz : dz ≤ 9) (hv : 256 ≤ 100 * dx + 10 * dy + dz) (rest : List Char) :
    ∀ m ∈ octetCands
        (digitChar dx :: digitChar dy :: digitChar dz :: rest), m ≤ 2 := by
  have h6x := digitChar_isDigit dx hx
  have h6y := digitChar_isDigit dy hy
  have h6z := digitChar_isDigit dz hz
  have hdx2 : 2 ≤ dx := by omega
  by_cases hx2 : dx = 2
  · subst hx2
    have hn01 : ¬ (digitChar 2 = '0' ∨ digitChar 2 = '1') := by decide
    by_cases hy5 : dy = 5
    · subst hy5
      have hz6 : 6 ≤ dz := by omega
      have hn5 : ¬ digitChar dz ≤ '5' :=
        fun h => by have := (digitChar_le_five dz hz).mp h; omega
      have hn4 : ¬ digitChar 5 ≤ '4' := by decide
      simp [octetCands, octetAlt1, octetAlt2, octetAlt3a, octetAlt3b, h6x,
        h6y, h6z, hn5, hn4, hn01]
    · have hy6 : 6 ≤ dy := by omega
      have hne5 : ¬ digitChar dy = '5' :=
        fun h => hy5 ((digitChar_eq_five dy hy).mp h)
      have hn4 : ¬ digitChar dy ≤ '4' :=
        fun h => by have := (digitChar_le_four dy hy).mp h; omega
      simp [octetCands, octetAlt1, octetAlt2, octetAlt3a, octetAlt3b, h6x,
        h6y, h6z, hne5, hn4, hn01]
  · have hdx3 : 3 ≤ dx := by omega
    have hne2 : ¬ digitChar dx = '2' :=
      fun h => by have := (digitChar_eq_two dx hx).mp h; omega
    have hn01 : ¬ (digitChar dx = '0' ∨ digitChar dx = '1') :=
      fun h => by have := (digitChar_le_one dx hx).mp h; omega
    simp [octetCands, octetAlt1, octetAlt2, octetAlt3a, octetAlt3b, h6x, h6y,
      h6z, hne2, hn01]

theorem head_eq_of_headq {l : List Nat} {n : Nat} (h : l.head? = some n) :
    ∃ t, l = n :: t := by
  cases l with
  | nil => simp at h
  | cons x t =>
    simp only [List.head?_cons, Option.some.injEq] at h
    exact ⟨t, by rw [h]⟩

/-- For a canonical numeral of a value ≤ 255 followed by a dot or the end,
the backtracking engine's first octet candidate consumes the whole
numeral. -/
theorem octetCands_good (v : Nat) (hv : v ≤ 255) (rest : List Char)
    (hrest : rest = [] ∨ ∃ r, rest = '.' :: r) :
    ∃ t, octetCands (octetChars v ++ rest) = (octetChars v).length :: t := by
  by_cases h1 : v < 10
  · rw [octetChars_lt_ten v h1]
    exact ⟨[], by simpa using octetCands_single v (by omega) rest hrest⟩
  · by_cases h2 : v < 100
    · rw [octetChars_lt_hundred v h1 h2]
      obtain ⟨t, ht⟩ := head_eq_of_headq
        (octetCands_double (v / 10) (v % 10) (by omega) (by omega) rest hrest).1
      exact ⟨t, by simpa using ht⟩
    · rw [octetChars_big v h1 h2]
      obtain ⟨t, ht⟩ := head_eq_of_headq
        (octetCands_triple_good (v / 100) (v / 10 % 10) (v % 10) (by omega)
          (by omega) (by omega) (by omega) (by omega) rest)
      exact ⟨t, by simpa using ht⟩

/-- No octet candidate consumes more than the numeral. -/
theorem octetCands_le_len (v : Nat) (hv : v ≤ 999) (rest : List Char)
    (hrest : rest = [] ∨ ∃ r, rest = '.' :: r) :
    ∀ m ∈ octetCands (octetChars v ++ rest), m ≤ (octetChars v).length := by
  by_cases h1 : v < 10
  · rw [octetChars_lt_ten v h1]
    intro m hm
    rw [List.singleton_append,
      octetCands_single v (by omega) rest hrest] at hm
    simp only [List.mem_singleton] at hm
    simp [hm]
  · by_cases h2 : v < 100
    · rw [octetChars_lt_hundred v h1 h2]
      intro m hm
      have := (octetCands_double (v / 10) (v % 10) (by omega) (by omega)
        rest hrest).2 m (by simpa using hm)
      simpa using this
    · rw [octetChars_big v h1 h2]
      intro m hm
      have := octetCands_le_three _ m hm
      simpa using this

/-- For a numeral of a value ≥ 256, every candidate is a strict prefix. -/
theorem octetCands_bad (v : Nat) (hv256 : 256 ≤ v) (hv : v ≤ 999)
    (rest : List Char) :
    ∀ m ∈ octetCands (octetChars v ++ rest), m ≤ 2 := by
  rw [octetChars_big v (by omega) (by omega)]
  intro m hm
  exact octetCands_triple_bad (v / 100) (v / 10 % 10) (v % 10) (by omega)
    (by omega) (by omega) (by omega) rest m (by simpa using hm)

theorem octetChars_len_bad (v : Nat) (hv256 : 256 ≤ v) (hv : v ≤ 999) :
    (octetChars v).length = 3 := by
  rw [octetChars_big v (by omega) (by omega)]
  rfl

/-- Dropping strictly inside a digit run leaves a digit at the head. -/
theorem drop_digits_head (l1 l2 : List Char) (m : Nat) (h : m < l1.length)
    (hd : ∀ c ∈ l1, c.isDigit = true) :
    ∃ c cs, (l1 ++ l2).drop m = c :: cs ∧ c.isDigit = true := by
  rw [List.drop_append_of_le_length (le_of_lt h)]
  exact ⟨l1[m], l1.drop (m + 1) ++ l2,
    by rw [List.drop_eq_getElem_cons h]; rfl,
    hd _ (List.getElem_mem h)⟩

theorem firstSome_cons_some (f : Nat → Option Nat) (n : Nat) (ns : List Nat)
    (m : Nat) (h : f n = some m) : firstSome f (n :: ns) = some m := by
  simp [firstSome, h]

theorem firstSome_none (f : Nat → Option Nat) :
    ∀ ns : List Nat, (∀ n ∈ ns, f n = none) → firstSome f ns = none := by
  intro ns
  induction ns with
  | nil => intro _; rfl
  | cons n ns ih =>
    intro h
    simp only [firstSome, h n (List.mem_cons_self n ns)]
    exact ih (fun k hk => h k (List.mem_cons_of_mem n hk))

theorem matchOctets_one (l : List Char) :
    matchOctets 1 l
      = firstSome
          (fun n => if boundaryAfter (l.drop n) then some n else none)
          (octetCands l) := rfl

theorem matchOctets_two_plus (k : Nat) (l : List Char) :
    matchOctets (k + 2) l
      = firstSome
          (fun n => dotThen
            (fun r => (matchOctets (k + 1) r).map (· + n + 1)) (l.drop n))
          (octetCands l) := rfl

theorem matchOctets_nil (k : Nat) : matchOctets k [] = none := by
  match k with
  | 0 => rfl
  | 1 => rfl
  | k + 2 => rfl

theorem ipJoin_cons (v w : Nat) (vs : List Nat) :
    ipJoin (v :: w :: vs) = octetChars v ++ '.' :: ipJoin (w :: vs) := rfl

theorem ipJoin_single (v : Nat) : ipJoin [v] = octetChars v := rfl

theorem dotThen_digit_head (g : List Char → Option Nat) (c : Char)
    (cs : List Char) (h : c.isDigit = true) : dotThen g (c :: cs) = none := by
  simp [dotThen, ne_dot_of_isDigit c h]

theorem boundary_digit_head (c : Char) (cs : List Char)
    (h : c.isDigit = true) : boundaryAfter (c :: cs) = false := by
  simp [boundaryAfter, wordChar_of_isDigit c h]

/-- The matcher consumes a whole dotted sequence of ≤255-valued canonical
numerals when asked for exactly that many octets. -/
theorem matchOctets_join :
    ∀ (vs : List Nat) (v : Nat), v ≤ 255 → (∀ u ∈ vs, u ≤ 255) →
      matchOctets (vs.length + 1) (ipJoin (v :: vs))
        = some (ipJoin (v :: vs)).length := by
  intro vs
  induction vs with
  | nil =>
    intro v hv _
    show matchOctets 1 (octetChars v) = some (octetChars v).length
    rw [matchOctets_one]
    obtain ⟨t, ht⟩ := octetCands_good v hv [] (Or.inl rfl)
    rw [List.append_nil] at ht
    rw [ht]
    apply firstSome_cons_some
    rw [List.drop_length]
    rfl
  | cons w vs ih =>
    intro v hv hall
    show matchOctets (vs.length + 2) (ipJoin (v :: w :: vs)) = _
    rw [ipJoin_cons, matchOctets_two_plus]
    obtain ⟨t, ht⟩ :=
      octetCands_good v hv ('.' :: ipJoin (w :: vs)) (Or.inr ⟨_, rfl⟩)
    rw [ht]
    apply firstSome_cons_some
    rw [List.drop_left]
    show dotThen _ ('.' :: ipJoin (w :: vs)) = _
    rw [show ∀ g, dotThen g ('.' :: ipJoin (w :: vs))
        = g (ipJoin (w :: vs)) from fun g => by simp [dotThen]]
    rw [ih w (hall w (List.mem_cons_self w vs))
      (fun u hu => hall u (List.mem_cons_of_mem w hu))]
    simp only [Option.map_some', List.length_append, List.length_cons]
    congr 1
    omega

/-- Fewer dotted components than requested octets: no match. -/
theorem matchOctets_fail_short :
    ∀ (vals : List Nat) (k : Nat), (∀ v ∈ vals, v ≤ 999) → vals.length < k →
      matchOctets k (ipJoin vals) = none := by
  intro vals
  induction vals with
  | nil =>
    intro k _ _
    exact matchOctets_nil k
  | cons v vs ih =>
    intro k hall hlen
    obtain ⟨k', rfl⟩ : ∃ k', k = k' + 2 := ⟨k - 2, by simp at hlen; omega⟩
    have hv999 : v ≤ 999 := hall v (List.mem_cons_self v vs)
    cases vs with
    | nil =>
      rw [ipJoin_single, matchOctets_two_plus]
      apply firstSome_none
      intro m hm
      have hm' : m ∈ octetCands (octetChars v ++ []) := by
        rw [List.append_nil]
        exact hm
      have hle := octetCands_le_len v hv999 [] (Or.inl rfl) m hm'
      by_cases heq : m = (octetChars v).length
      · subst heq
        rw [List.drop_length]
        rfl
      · obtain ⟨c, cs, hdrop, hcdig⟩ :=
          drop_digits_head (octetChars v) [] m (by omega)
            (octetChars_digits v hv999)
        rw [List.append_nil] at hdrop
        rw [hdrop]
        exact dotThen_digit_head _ c cs hcdig
    | cons w vs' =>
      rw [ipJoin_cons, matchOctets_two_plus]
      apply firstSome_none
      intro m hm
      have hle := octetCands_le_len v hv999 ('.' :: ipJoin (w :: vs'))
        (Or.inr ⟨_, rfl⟩) m hm
      by_cases heq : m = (octetChars v).length
      · subst heq
        rw [List.drop_left]
        rw [show ∀ g, dotThen g ('.' :: ipJoin (w :: vs'))
            = g (ipJoin (w :: vs')) from fun g => by simp [dotThen]]
        rw [ih (k' + 1) (fun u hu => hall u (List.mem_cons_of_mem v hu))
          (by simp at hlen ⊢; omega)]
        rfl
      · obtain ⟨c, cs, hdrop, hcdig⟩ :=
          drop_digits_head (octetChars v) ('.' :: ipJoin (w :: vs')) m
            (by omega) (octetChars_digits v hv999)
        rw [hdrop]
        exact dotThen_digit_head _ c cs hcdig

/-- A component with value ≥ 256 among exactly-as-many components: no
match. -/
theorem matchOctets_fail_bad :
    ∀ (vals : List Nat) (k : Nat), vals.length = k → (∀ v ∈ vals, v ≤ 999) →
      (∃ v ∈ vals, 256 ≤ v) → matchOctets k (ipJoin vals) = none := by
  intro vals
  induction vals with
  | nil =>
    intro k _ _ hbad
    simp at hbad
  | cons v vs ih =>
    intro k hk hall hbad
    subst hk
    have hv999 : v ≤ 999 := hall v (List.mem_cons_self v vs)
    by_cases hv256 : 256 ≤ v
    · have hlen3 := octetChars_len_bad v hv256 hv999
      cases vs with
      | nil =>
        rw [ipJoin_single]
        show matchOctets 1 (octetChars v) = none
        rw [matchOctets_one]
        apply firstSome_none
        intro m hm
        have hm' : m ∈ octetCands (octetChars v ++ []) := by
          rw [List.append_nil]
          exact hm
        have hle := octetCands_bad v hv256 hv999 [] m hm'
        obtain ⟨c, cs, hdrop, hcdig⟩ :=
          drop_digits_head (octetChars v) [] m (by omega)
            (octetChars_digits v hv999)
        rw [List.append_nil] at hdrop
        rw [hdrop, boundary_digit_head c cs hcdig]
        rfl
      | cons w vs' =>
        rw [ipJoin_cons]
        show matchOctets (vs'.length + 2) _ = none
        rw [matchOctets_two_plus]
        apply firstSome_none
        intro m hm
        have hle := octetCands_bad v hv256 hv999 ('.' :: ipJoin (w :: vs')) m hm
        obtain ⟨c, cs, hdrop, hcdig⟩ :=
          drop_digits_head (octetChars v) ('.' :: ipJoin (w :: vs')) m
            (by omega) (octetChars_digits v hv999)
        rw [hdrop]
        exact dotThen_digit_head _ c cs hcdig
    · rcases hbad with ⟨u, hu, hu256⟩
      have hutail : u ∈ vs := by
        rcases List.mem_cons.mp hu with h | h
        · subst h; omega
        · exact h
      cases vs with
      | nil => simp at hutail
      | cons w vs' =>
        rw [ipJoin_cons]
        show matchOctets (vs'.length + 2) _ = none
        rw [matchOctets_two_plus]
        apply firstSome_none
        intro m hm
        have hle := octetCands_le_len v hv999 ('.' :: ipJoin (w :: vs'))
          (Or.inr ⟨_, rfl⟩) m hm
        by_cases heq : m = (octetChars v).length
        · subst heq
          rw [List.drop_left]
          rw [show ∀ g, dotThen g ('.' :: ipJoin (w :: vs'))
              = g (ipJoin (w :: vs')) from fun g => by simp [dotThen]]
          rw [ih (vs'.length + 1) rfl
            (fun x hx => hall x (List.mem_cons_of_mem v hx)) ⟨u, hutail, hu256⟩]
          rfl
        · obtain ⟨c, cs, hdrop, hcdig⟩ :=
            drop_digits_head (octetChars v) ('.' :: ipJoin (w :: vs')) m
              (by omega) (octetChars_digits v hv999)
          rw [hdrop]
          exact dotThen_digit_head _ c cs hcdig

theorem not_bracket_of_digit_dot (c : Char)
    (h : c.isDigit = true ∨ c = '.') : c ≠ '[' ∧ c ≠ '(' := by
  rcases h with hd | hd
  · constructor <;> intro e <;> rw [e] at hd <;> exact absurd hd (by decide)
  · rw [hd]
    exact ⟨by decide, by decide⟩

theorem sepHead_not_bracket (a : Char) (l : List Char) (h1 : a ≠ '[')
    (h2 : a ≠ '(') : sepHead (a :: l) = none := by
  match l with
  | [] => rfl
  | [b] => rfl
  | b :: c :: rest =>
    show sepHead (a :: b :: c :: rest) = none
    simp only [sepHead]
    rw [if_neg (by rintro (⟨ha, _⟩ | ⟨ha, _⟩); exacts [h1 ha, h2 ha])]
    cases rest with
    | nil => rfl
    | cons d rest' =>
      cases rest' with
      | nil => rfl
      | cons e rest2 =>
        show (if (a = '[' ∧ e = ']' ∨ a = '(' ∧ e = ')')
            ∧ isDotWord b c d = true then some rest2 else none) = none
        rw [if_neg (by rintro ⟨⟨ha, _⟩ | ⟨ha, _⟩, _⟩; exacts [h1 ha, h2 ha])]

theorem hasSep_digit_dot :
    ∀ (l : List Char), (∀ c ∈ l, c.isDigit = true ∨ c = '.') →
      hasSep l = false := by
  intro l
  induction l with
  | nil => intro _; rfl
  | cons c rest ih =>
    intro h
    obtain ⟨h1, h2⟩ :=
      not_bracket_of_digit_dot c (h c (List.mem_cons_self c rest))
    simp only [hasSep, sepHead_not_bracket c rest h1 h2, Option.isSome_none,
      Bool.false_or]
    exact ih (fun x hx => h x (List.mem_cons_of_mem c hx))

theorem ipChars_digit_dot (a b c d : Nat) (ha : a ≤ 999) (hb : b ≤ 999)
    (hc : c ≤ 999) (hd : d ≤ 999) :
    ∀ ch ∈ ipChars a b c d, ch.isDigit = true ∨ ch = '.' := by
  intro ch hch
  have he : ipChars a b c d
      = octetChars a ++ '.' :: (octetChars b ++ '.'
          :: (octetChars c ++ '.' :: octetChars d)) := rfl
  rw [he] at hch
  simp only [List.mem_append, List.mem_cons] at hch
  rcases hch with h | h | h | h | h | h | h
  · exact Or.inl (octetChars_digits a ha ch h)
  · exact Or.inr h
  · exact Or.inl (octetChars_digits b hb ch h)
  · exact Or.inr h
  · exact Or.inl (octetChars_digits c hc ch h)
  · exact Or.inr h
  · exact Or.inl (octetChars_digits d hd ch h)

theorem refang_ipString (a b c d : Nat) (ha : a ≤ 999) (hb : b ≤ 999)
    (hc : c ≤ 999) (hd : d ≤ 999) :
    refang_ip (ipString a b c d) = ipString a b c d := by
  show String.mk (refangAux (ipString a b c d).data.length
      (ipString a b c d).data) = ipString a b c d
  have hdata : (ipString a b c d).data = ipChars a b c d := rfl
  rw [hdata, refangAux_of_no_sep _ _
    (hasSep_digit_dot _ (ipChars_digit_dot a b c d ha hb hc hd))]
  rfl

theorem ipChars_ne_nil (a b c d : Nat) : ipChars a b c d ≠ [] := by
  have he : ipChars a b c d
      = octetChars a ++ '.' :: (octetChars b ++ '.'
          :: (octetChars c ++ '.' :: octetChars d)) := rfl
  rw [he]
  simp

theorem scanIPv4_nil_list (fuel : Nat) (w : Bool) :
    scanIPv4 fuel [] w = [] := by
  cases fuel <;> rfl

theorem scanIPv4_full (l : List Char) (hne : l ≠ [])
    (hm : matchOctets 4 l = some l.length) :
    scanIPv4 l.length l false = [l] := by
  obtain ⟨c, rest, rfl⟩ := List.exists_cons_of_ne_nil hne
  show scanIPv4 (rest.length + 1) (c :: rest) false = [c :: rest]
  simp only [scanIPv4, Bool.false_eq_true, if_false, hm, List.length_cons]
  rw [show (rest.length + 1 : Nat) = (c :: rest).length from rfl,
    List.take_length, List.drop_length, scanIPv4_nil_list]

theorem scanIPv4_nil_of_no_match :
    ∀ (fuel : Nat) (l : List Char) (w : Bool),
      (w = false → matchOctets 4 l = none) →
      (∀ pre ch t, l = pre ++ ch :: t → wordChar ch = false →
        matchOctets 4 t = none) →
      scanIPv4 fuel l w = [] := by
  intro fuel
  induction fuel with
  | zero =>
    intro l w _ _
    cases l <;> rfl
  | succ f ih =>
    intro l w h1 h2
    cases l with
    | nil => rfl
    | cons c rest =>
      have hrest1 : wordChar c = false → matchOctets 4 rest = none :=
        fun hw => h2 [] c rest rfl hw
      have hrest2 : ∀ pre ch t, rest = pre ++ ch :: t →
          wordChar ch = false → matchOctets 4 t = none :=
        fun pre ch t he hw => h2 (c :: pre) ch t (by rw [he]; rfl) hw
      cases w with
      | true =>
        show scanIPv4 (f + 1) (c :: rest) true = []
        simp only [scanIPv4, if_pos rfl]
        exact ih rest (wordChar c) hrest1 hrest2
      | false =>
        have hm := h1 rfl
        simp only [scanIPv4, Bool.false_eq_true, if_false, hm]
        exact ih rest (wordChar c) hrest1 hrest2

/-- Splitting a dotted numeral sequence at any non-word character lands
right after one of the separator dots. -/
theorem ipJoin_split :
    ∀ (vals : List Nat), (∀ v ∈ vals, v ≤ 999) →
      ∀ pre ch t, ipJoin vals = pre ++ ch :: t → wordChar ch = false →
        ∃ vs' : List Nat, vs'.length < vals.length ∧ (∀ v ∈ vs', v ≤ 999)
          ∧ t = ipJoin vs' := by
  intro vals
  induction vals with
  | nil =>
    intro _ pre ch t he _
    rw [show ipJoin [] = [] from rfl] at he
    exact absurd he (by simp)
  | cons v vs ih =>
    intro hall pre ch t he hw
    cases vs with
    | nil =>
      exfalso
      rw [ipJoin_single] at he
      have hmem : ch ∈ octetChars v := by
        rw [he]
        exact List.mem_append_right _ (List.mem_cons_self _ _)
      have hdig := octetChars_digits v (hall v (by simp)) ch hmem
      rw [wordChar_of_isDigit ch hdig] at hw
      exact absurd hw (by simp)
    | cons w vs' =>
      rw [ipJoin_cons] at he
      rcases List.append_eq_append_iff.mp he with ⟨a2, _, ha2⟩ | ⟨c2, hc1, hc2⟩
      · cases a2 with
        | nil =>
          simp only [List.nil_append, List.cons.injEq] at ha2
          exact ⟨w :: vs', by simp,
            fun u hu => hall u (List.mem_cons_of_mem v hu), ha2.2.symm⟩
        | cons x a3 =>
          simp only [List.cons_append, List.cons.injEq] at ha2
          obtain ⟨vs2, hlen, hle, ht⟩ :=
            ih (fun u hu => hall u (List.mem_cons_of_mem v hu)) a3 ch t
              ha2.2 hw
          exact ⟨vs2, by simp at hlen ⊢; omega, hle, ht⟩
      · cases c2 with
        | nil =>
          simp only [List.nil_append, List.cons.injEq] at hc2
          exact ⟨w :: vs', by simp,
            fun u hu => hall u (List.mem_cons_of_mem v hu), hc2.2⟩
        | cons x c3 =>
          exfalso
          simp only [List.cons_append, List.cons.injEq] at hc2
          have hx : x ∈ octetChars v := by
            rw [hc1]
            exact List.mem_append_right _ (List.mem_cons_self _ _)
          have hdig := octetChars_digits v (hall v (by simp)) x hx
          rw [hc2.1, wordChar_of_isDigit x hdig] at hw
          exact absurd hw (by simp)

theorem extract_good_quad (a b c d : Nat) (ha : a ≤ 255) (hb : b ≤ 255)
    (hc : c ≤ 255) (hd : d ≤ 255) :
    extract_ips_from_text (ipString a b c d) = [ipString a b c d] := by
  have hrf := refang_ipString a b c d (by omega) (by omega) (by omega)
    (by omega)
  show dedupFirst []
      ((scanIPv4 (refang_ip (ipString a b c d)).data.length
        (refang_ip (ipString a b c d)).data false).map (⟨·⟩)) = _
  rw [hrf]
  show dedupFirst []
      ((scanIPv4 (ipChars a b c d).length (ipChars a b c d) false).map
        (⟨·⟩)) = _
  have hm : matchOctets 4 (ipChars a b c d)
      = some (ipChars a b c d).length := by
    have := matchOctets_join [b, c, d] a ha
      (by intro u hu; simp at hu; rcases hu with h | h | h <;> omega)
    exact this
  rw [scanIPv4_full (ipChars a b c d) (ipChars_ne_nil a b c d) hm]
  simp [dedupFirst, ipString]

theorem extract_bad_quad (a b c d : Nat) (ha : a ≤ 999) (hb : b ≤ 999)
    (hc : c ≤ 999) (hd : d ≤ 999)
    (hbad : 256 ≤ a ∨ 256 ≤ b ∨ 256 ≤ c ∨ 256 ≤ d) :
    extract_ips_from_text (ipString a b c d) = [] := by
  have hrf := refang_ipString a b c d ha hb hc hd
  show dedupFirst []
      ((scanIPv4 (refang_ip (ipString a b c d)).data.length
        (refang_ip (ipString a b c d)).data false).map (⟨·⟩)) = _
  rw [hrf]
  show dedupFirst []
      ((scanIPv4 (ipChars a b c d).length (ipChars a b c d) false).map
        (⟨·⟩)) = _
  have hall : ∀ v ∈ [a, b, c, d], v ≤ 999 := by
    intro u hu
    simp at hu
    rcases hu with h | h | h | h <;> omega
  have hscan : scanIPv4 (ipChars a b c d).length (ipChars a b c d) false
      = [] := by
    apply scanIPv4_nil_of_no_match
    · intro _
      apply matchOctets_fail_bad [a, b, c, d] 4 rfl hall
      rcases hbad with h | h | h | h
      · exact ⟨a, by simp, h⟩
      · exact ⟨b, by simp, h⟩
      · exact ⟨c, by simp, h⟩
      · exact ⟨d, by simp, h⟩
    · intro pre ch t he hw
      obtain ⟨vs', hlen, hle, ht⟩ := ipJoin_split [a, b, c, d] hall pre ch t
        he hw
      rw [ht]
      exact matchOctets_fail_short vs' 4 hle (by simp at hlen; omega)
  rw [hscan]
  rfl

/-- C5: `extract_ips_from_text` returns exactly the input for every valid
dotted-quad literal (octets 0–255, canonical numerals); a dotted-quad token
with a component ≥ 256 yields nothing at all — no partial sub-match; and
the boundary values `0.0.0.0`, `255.255.255.255` are accepted while
`999.999.999.999` is rejected entirely. -/
theorem claim_C5_extract_dotted_quads :
    (∀ a b c d : Nat, a ≤ 255 → b ≤ 255 → c ≤ 255 → d ≤ 255 →
        extract_ips_from_text (ipString a b c d) = [ipString a b c d])
      ∧ (∀ a b c d : Nat, a ≤ 999 → b ≤ 999 → c ≤ 999 → d ≤ 999 →
          (256 ≤ a ∨ 256 ≤ b ∨ 256 ≤ c ∨ 256 ≤ d) →
          extract_ips_from_text (ipString a b c d) = [])
      ∧ extract_ips_from_text "999.999.999.999" = []
      ∧ extract_ips_from_text "0.0.0.0" = ["0.0.0.0"]
      ∧ extract_ips_from_text "255.255.255.255" = ["255.255.255.255"] := by
  refine ⟨?_, ?_, by decide, by decide, by decide⟩
  · intro a b c d ha hb hc hd
    exact extract_good_quad a b c d ha hb hc hd
  · intro a b c d ha hb hc hd hbad
    exact extract_bad_quad a b c d ha hb hc hd hbad

theorem claim_C5_witness :
    extract_ips_from_text (ipString 1 2 3 4) = [ipString 1 2 3 4]
      ∧ extract_ips_from_text (ipString 999 2 3 4) = [] :=
  ⟨claim_C5_extract_dotted_quads.1 1 2 3 4 (by omega) (by omega) (by omega)
      (by omega),
   claim_C5_extract_dotted_quads.2.1 999 2 3 4 (by omega) (by omega)
      (by omega) (by omega) (Or.inl (by omega))⟩

end Ransomwatch
